import Mathlib

/-!
Shallow embedding of the type-inference engine in
`src/numba2/compiler/inference.py` (Cartesian Product Algorithm):
constraint-graph construction (`build_graph` / `ConstraintGenerator`),
context copying and seeding (`copy_context`, `Context.copy`,
`seed_context`), the worklist fixpoint solver (`infer_graph`,
`infer_node`) and the call resolver (`infer_call`, `infer`).

Python machine model: exceptions are modelled by `Except Err`; Python
`dict`s by association lists (first binding wins, insertion replaces in
place); Python `set`s by insertion-ordered duplicate-free lists, so that
`x in s` / `s.add(x)` are `∈` / `TypeSet.add`.  The `networkx.DiGraph`
is modelled by an explicit node/edge list with the API the source uses
(`add_node`, `add_edge`, `predecessors`, `neighbors`, iteration in
insertion order).
-/

namespace NumbaInfer

/-- Modelled from the spec: the `Type` values of the `numba2.compiler.typing`
module (not under `src/`).  Spec §3: a type is a nominal constructor applied
to type parameters (`Bool`, `Void`, `Opaque`, `Pointer[T]`,
`Function[R, A...]` are all `con`); `Method(f, self)` pairs an underlying
function (a function reference, here a numeric id) with a receiver type; a
set of candidate overloads (a Python `frozenset`) is `oset`. -/
inductive Ty where
  | con : String → List Ty → Ty
  | method : Nat → Ty → Ty
  | oset : List Ty → Ty

mutual

/-- Structural (boolean) equality of types. -/
def Ty.beq : Ty → Ty → Bool
  | .con n ps, .con m qs => n == m && Ty.beqList ps qs
  | .method f s, .method g t => f == g && Ty.beq s t
  | .oset ps, .oset qs => Ty.beqList ps qs
  | _, _ => false

/-- Pointwise `Ty.beq` on parameter lists. -/
def Ty.beqList : List Ty → List Ty → Bool
  | [], [] => true
  | a :: as, b :: bs => Ty.beq a b && Ty.beqList as bs
  | _, _ => false

end

mutual

theorem Ty.eq_of_beq : ∀ {a b : Ty}, Ty.beq a b = true → a = b
  | .con n ps, .con m qs, h => by
      simp only [Ty.beq, Bool.and_eq_true, beq_iff_eq] at h
      exact h.1 ▸ (Ty.eqList_of_beqList h.2) ▸ rfl
  | .method f s, .method g t, h => by
      simp only [Ty.beq, Bool.and_eq_true, beq_iff_eq] at h
      exact h.1 ▸ (Ty.eq_of_beq h.2) ▸ rfl
  | .oset ps, .oset qs, h => by
      simp only [Ty.beq] at h
      exact (Ty.eqList_of_beqList h) ▸ rfl

theorem Ty.eqList_of_beqList : ∀ {as bs : List Ty}, Ty.beqList as bs = true → as = bs
  | [], [], _ => rfl
  | a :: as, b :: bs, h => by
      simp only [Ty.beqList, Bool.and_eq_true] at h
      exact (Ty.eq_of_beq h.1) ▸ (Ty.eqList_of_beqList h.2) ▸ rfl

end

mutual

theorem Ty.beq_refl : ∀ a : Ty, Ty.beq a a = true
  | .con n ps => by simp only [Ty.beq, Bool.and_eq_true, beq_iff_eq]
                    exact ⟨trivial, Ty.beqList_refl ps⟩
  | .method f s => by simp only [Ty.beq, Bool.and_eq_true, beq_iff_eq]
                      exact ⟨trivial, Ty.beq_refl s⟩
  | .oset ps => by simp only [Ty.beq]; exact Ty.beqList_refl ps

theorem Ty.beqList_refl : ∀ as : List Ty, Ty.beqList as as = true
  | [] => rfl
  | a :: as => by simp only [Ty.beqList, Bool.and_eq_true]
                  exact ⟨Ty.beq_refl a, Ty.beqList_refl as⟩

end

instance : DecidableEq Ty := fun a b =>
  if h : Ty.beq a b = true then .isTrue (Ty.eq_of_beq h)
  else .isFalse (fun he => h (he ▸ Ty.beq_refl a))

/-- The `Bool()` type. -/
def tyBool : Ty := .con "Bool" []
/-- The `Void()` type. -/
def tyVoid : Ty := .con "Void" []
/-- The `Opaque()` type. -/
def tyOpaque : Ty := .con "Opaque" []
/-- The `Pointer(t)` type constructor. -/
def tyPointer (t : Ty) : Ty := .con "Pointer" [t]

/-- Python attribute access `type.name`.  `con` and `method` types expose a
constructor name; a `frozenset` of overloads has no `name` attribute, which
in Python raises `AttributeError` (modelled by `none`). -/
def Ty.nameAttr : Ty → Option String
  | .con n _ => some n
  | .method _ _ => some "Method"
  | .oset _ => none

/-- Python attribute access `type.params`: the parameter list of a
constructed type; a `frozenset` has no `params` attribute. -/
def Ty.paramsAttr : Ty → Option (List Ty)
  | .con _ ps => some ps
  | .method _ _ => none
  | .oset _ => none

/-- Indexing `func_type[0]` / `func_type[1]` on a `Method` type: the underlying
function reference and the receiver type. -/
def Ty.methParts : Ty → Option (Nat × Ty)
  | .method f s => some (f, s)
  | _ => none

/-- Graph nodes: IR operations, constants, formal arguments, globals,
`ir.Function` values, synthetic `'var%d'` alloca slots, the distinguished
`'return'` string node, and `Type` instances used directly as graph nodes
(the `Bool()` pin of `op_cbranch`, the target type of `op_convert`, the
`Void()` of `op_ret`). -/
inductive Node where
  | op : Nat → Node
  | cnst : Nat → Node
  | arg : Nat → Node
  | glob : Nat → Node
  | funcref : Nat → Node
  | var : Nat → Node
  | ret : Node
  | tylit : Ty → Node
  deriving DecidableEq

/-- Python `isinstance(func, ir.Function)`. -/
def Node.isFuncref : Node → Bool
  | .funcref _ => true
  | _ => false

/-- Python exceptions raised by the engine. -/
inductive Err where
  | keyError
  | valueError
  | indexError
  | attributeError : String → Err
  | typeError : String → Err
  | notImplementedError : String → Err
  | inferError : Ty → String → Err
  | outOfFuel
  deriving DecidableEq

/-- The constraint kinds of `infer_node`. -/
inductive CKind where
  | pointer
  | flow
  | attr
  | call
  deriving DecidableEq

/-- Per-node metadata (`ctx.metadata[node]`): `{'attr': attr}` for
`op_getfield`, `{'func': func, 'args': args}` for `op_call`. -/
inductive MetaVal where
  | attrM : String → MetaVal
  | callM : Node → List Node → MetaVal
  deriving DecidableEq

/-- Association-list lookup, modelling Python `dict.__getitem__` /
`dict.get`. -/
def alookup {α β : Type} [DecidableEq α] : List (α × β) → α → Option β
  | [], _ => none
  | (k, v) :: rest, a => if a = k then some v else alookup rest a

/-- Python `dict.get(node, default)`. -/
def alookupD {α β : Type} [DecidableEq α] (l : List (α × β)) (a : α) (d : β) : β :=
  (alookup l a).getD d

/-- Python `dict` assignment `d[k] = v`: replace the first binding of `k`
in place, or append a fresh binding. -/
def ainsert {α β : Type} [DecidableEq α] : List (α × β) → α → β → List (α × β)
  | [], a, b => [(a, b)]
  | (k, v) :: rest, a, b => if k = a then (a, b) :: rest else (k, v) :: ainsert rest a b

/-- A Python `set` of types, as an insertion-ordered duplicate-free list. -/
abbrev TypeSet := List Ty

/-- Python `set.add`. -/
def TypeSet.add (s : TypeSet) (t : Ty) : TypeSet :=
  if t ∈ s then s else s ++ [t]

/-- The node → type-set binding mapping (`Context.context`). -/
abbrev Bindings := List (Node × TypeSet)

/-- The `networkx.DiGraph` as the source uses it: node set and directed
edge set, kept in insertion order (iterating the graph yields nodes in
insertion order, which fixes the initial worklist). -/
structure Graph where
  nodes : List Node
  edges : List (Node × Node)
  deriving DecidableEq

/-- Graph insertion `G.add_node(n)`: no effect when the node is already present. -/
def Graph.add_node (g : Graph) (n : Node) : Graph :=
  if n ∈ g.nodes then g else { g with nodes := g.nodes ++ [n] }

/-- Edge insertion `G.add_edge(u, v)`: adds missing endpoints, ignores duplicate edges. -/
def Graph.add_edge (g : Graph) (u v : Node) : Graph :=
  let g := (g.add_node u).add_node v
  if (u, v) ∈ g.edges then g else { g with edges := g.edges ++ [(u, v)] }

/-- The predecessor list `G.predecessors(n)`. -/
def Graph.predecessors (g : Graph) (n : Node) : List Node :=
  (g.edges.filter (fun e => e.2 = n)).map (fun e => e.1)

/-- The successor list `G.neighbors(n)` (successors of a directed graph). -/
def Graph.neighbors (g : Graph) (n : Node) : List Node :=
  (g.edges.filter (fun e => e.1 = n)).map (fun e => e.2)

/-- An untyped pykit IR operation, by kind.  Each payload mirrors the
`op.args` destructuring of the matching `ConstraintGenerator` handler:
`load`/`store` refer to their `alloca` operation by id, `convert` carries
the operation's static type `op.type`, `ret_` has an optional value
(`op.args[0] or Void()`). -/
inductive OpKind where
  | alloca
  | load : Nat → OpKind
  | store : Node → Nat → OpKind
  | phi : List Node → List Node → OpKind
  | getfield : Node → String → OpKind
  | call : Node → List Node → OpKind
  | convert : Ty → Node → OpKind
  | exc_setup
  | exc_throw
  | exc_catch
  | jump
  | cbranch : Node → OpKind
  | ret_ : Option Node → OpKind
  deriving DecidableEq

/-- An IR operation: identity (its graph node is `Node.op id`) plus kind. -/
structure Op where
  id : Nat
  kind : OpKind
  deriving DecidableEq

/-- The atoms of `flatten(op.args)`, in order (strings and block labels of
the raw argument list are never constants/globals/arguments and never make
it into the graph, so only value atoms are listed). -/
def Op.atoms (o : Op) : List Node :=
  match o.kind with
  | .alloca => []
  | .load slot => [Node.op slot]
  | .store v slot => [v, Node.op slot]
  | .phi blocks incoming => blocks ++ incoming
  | .getfield a _ => [a]
  | .call f args => f :: args
  | .convert _ a => [a]
  | .cbranch c => [c]
  | .ret_ v => v.toList
  | _ => []

/-- An IR function: formal argument nodes (`func.args`) and operation list
(`func.ops`). -/
structure Func where
  args : List Node
  ops : List Op
  deriving DecidableEq

/-- The type inference context (`Context`): bindings, plus the constraint
graph, per-node constraint kinds and per-node metadata.  Per the source
docstring, only `context` is meant to be mutable after construction. -/
structure Ctx where
  func : Func
  context : Bindings
  constraints : List (Node × CKind)
  graph : Graph
  metadata : List (Node × MetaVal)
  deriving DecidableEq

/-- Source `copy_context`: `dict((binding, set(type)) for binding, type in
context.iteritems())` — the same keys, each bound to a fresh set with the
same elements. -/
def copy_context (context : Bindings) : Bindings :=
  context.map (fun p => (p.1, p.2.map (fun t => t)))

/-- Source `Context.copy`: fresh deep-copied bindings, shared graph, constraints
and metadata. -/
def Ctx.copy (ctx : Ctx) : Ctx :=
  { func := ctx.func, context := copy_context ctx.context,
    constraints := ctx.constraints, graph := ctx.graph,
    metadata := ctx.metadata }

/-- Source `seed_context`: `for arg, argtype in zip(ctx.func.args, argtypes):
ctx.context[arg] = set([argtype])`.  `zip` stops at the shorter list. -/
def seed_context (ctx : Ctx) (argtypes : List Ty) : Ctx :=
  { ctx with
    context := (List.zip ctx.func.args argtypes).foldl
      (fun c p => ainsert c p.1 [p.2]) ctx.context }

/-- State of the `ConstraintGenerator` visitor: the graph under
construction, the constraint and metadata maps, and the `_allocas`
slot-node table (alloca op id → synthetic variable node). -/
structure GenState where
  G : Graph
  constraints : List (Node × CKind)
  metadata : List (Node × MetaVal)
  allocas : List (Nat × Node)
  deriving DecidableEq

/-- One `ConstraintGenerator` visit, dispatching on the operation kind
exactly as the `op_*` handlers do. -/
def genVisit (st : GenState) (o : Op) : Except Err GenState :=
  let n := Node.op o.id
  match o.kind with
  | .alloca =>
      let st :=
        if (alookup st.allocas o.id).isSome then st
        else
          let v := Node.var st.allocas.length
          { st with G := st.G.add_node v, allocas := ainsert st.allocas o.id v }
      match alookup st.allocas o.id with
      | some v => .ok { st with G := st.G.add_edge v n,
                                constraints := ainsert st.constraints n .pointer }
      | none => .error .keyError
  | .load slot =>
      match alookup st.allocas slot with
      | some v => .ok { st with G := st.G.add_edge v n }
      | none => .error .keyError
  | .store value slot =>
      match alookup st.allocas slot with
      | some v => .ok { st with G := st.G.add_edge value v }
      | none => .error .keyError
  | .phi _ incoming =>
      .ok { st with G := incoming.foldl (fun g i => g.add_edge i n) st.G }
  | .getfield arg attr =>
      .ok { st with G := st.G.add_edge arg n,
                    metadata := ainsert st.metadata n (.attrM attr),
                    constraints := ainsert st.constraints n .attr }
  | .call f args =>
      .ok { st with G := (f :: args).foldl (fun g a => g.add_edge a n) st.G,
                    constraints := ainsert st.constraints n .call,
                    metadata := ainsert st.metadata n (.callM f args) }
  | .convert ty arg =>
      if ty ≠ tyOpaque then .ok { st with G := st.G.add_edge (.tylit ty) n }
      else .ok { st with G := st.G.add_edge arg n }
  | .exc_setup => .ok st
  | .exc_throw => .ok st
  | .exc_catch => .ok st
  | .jump => .ok st
  | .cbranch cond =>
      .ok { st with G := st.G.add_edge (.tylit tyBool) cond }
  | .ret_ v =>
      .ok { st with G := st.G.add_edge (v.getD (.tylit tyVoid)) .ret }

/-- Source `generate_constraints`: run the visitor over every operation. -/
def generate_constraints (func : Func) (G : Graph) :
    Except Err (List (Node × CKind) × List (Node × MetaVal) × Graph) :=
  match func.ops.foldl
      (fun (acc : Except Err GenState) o => match acc with
        | .error e => .error e
        | .ok st => genVisit st o)
      (Except.ok { G := G, constraints := [], metadata := [], allocas := [] }) with
  | .error e => .error e
  | .ok st => .ok (st.constraints, st.metadata, st.G)

/-- Source `build_graph`: add a node for every operation and for every constant /
global / argument atom, generate constraints, and return the template
`Context` — whose binding map is the **empty** dict `context = {}`. -/
def build_graph (func : Func) : Except Err Ctx :=
  let G : Graph := { nodes := [], edges := [] }
  let G := func.ops.foldl
    (fun g o =>
      let g := g.add_node (Node.op o.id)
      (o.atoms.filter (fun a => match a with
        | .cnst _ => true | .glob _ => true | .arg _ => true
        | _ => false)).foldl (fun g a => g.add_node a) g)
    G
  match generate_constraints func G with
  | .error e => .error e
  | .ok (constraints, metadata, G) =>
      .ok { func := func, context := [], constraints := constraints,
            graph := G, metadata := metadata }

/-- Modelled from the spec: the field layout of user-defined types, an
external collaborator of the engine (spec §6): for a type, the mapping
from field name to `(value, declared field type)` that `type.fields`
denotes in the `attr` transfer; the `value` of a field is a function
reference (the accessor consulted for bound-method construction). -/
abbrev FieldLayout := Ty → List (String × Nat × Ty)

/-- The gather loop `for neighbor in incoming: for type in ctx.context[neighbor]`:
concatenate the predecessor type sets in order; a predecessor without a
binding raises `KeyError`. -/
def gatherAll (context : Bindings) : List Node → Except Err (List Ty)
  | [] => .ok []
  | n :: rest =>
      match alookup context n with
      | none => .error .keyError
      | some ts =>
          match gatherAll context rest with
          | .error e => .error e
          | .ok tys => .ok (ts ++ tys)

/-- The grow step `changed |= type not in typeset; typeset.add(type)`, folded over a
candidate list. -/
def addAllTys : TypeSet → Bool → List Ty → TypeSet × Bool
  | ts, ch, [] => (ts, ch)
  | ts, ch, t :: rest => addAllTys (ts.add t) (ch || decide (t ∉ ts)) rest

/-- The `attr` transfer body: for each candidate type of the single
predecessor, look the field up in the type's layout; a missing field
raises `InferError("Type %s has no attribute %s")`; a field whose declared
type is a `Function` is wrapped as `Method(value, type)`. -/
def attrLoop (F : FieldLayout) (attr : String) :
    List Ty → TypeSet → Bool → Except Err (TypeSet × Bool)
  | [], ts, ch => .ok (ts, ch)
  | t :: rest, ts, ch =>
      match alookup (F t) attr with
      | none => .error (.inferError t attr)
      | some (value, res) =>
          let result := if res.nameAttr = some "Function" then Ty.method value t else res
          attrLoop F attr rest (ts.add result) (ch || decide (result ∉ ts))

/-- Python `itertools.product(*arg_typess)`: all argument-type combinations in
lexicographic order, the first factor varying slowest. -/
def productL : List (List Ty) → List (List Ty)
  | [] => [[]]
  | xs :: rest => xs.flatMap (fun x => (productL rest).map (fun ys => x :: ys))

/-- The `call` transfer loop over the cartesian product: for a combination
whose key `(node, func_type, tuple(arg_types))` is not in the
per-invocation `processed` set, record it and invoke the resolver
(`infer_call`), adding the result to the type set.  The resolver is a
parameter threading its own state `σ` (for the engine proper, the
inference cache; for instrumented runs, an invocation log). -/
def callLoop {σ : Type}
    (resolve : σ → Node → Ty → List Ty → Except Err (σ × Ty))
    (funcNode node : Node) :
    List (Ty × List Ty) → σ → TypeSet → Bool → List (Node × Ty × List Ty) →
    Except Err (σ × TypeSet × Bool)
  | [], st, ts, ch, _ => .ok (st, ts, ch)
  | (ft, ats) :: rest, st, ts, ch, processed =>
      let key : Node × Ty × List Ty := (node, ft, ats)
      if key ∈ processed then callLoop resolve funcNode node rest st ts ch processed
      else
        match resolve st funcNode ft ats with
        | .error e => .error e
        | .ok (st', result) =>
            callLoop resolve funcNode node rest st' (ts.add result)
              (ch || decide (result ∉ ts)) (processed ++ [key])

/-- The comprehension `[ctx.context[arg] for arg in ctx.metadata[node]['args']]`: the
per-argument type sets, `KeyError` on a missing binding. -/
def lookupList (context : Bindings) : List Node → Except Err (List TypeSet)
  | [] => .ok []
  | a :: rest =>
      match alookup context a with
      | none => .error .keyError
      | some ts =>
          match lookupList context rest with
          | .error e => .error e
          | .ok tss => .ok (ts :: tss)

/-- The constraint dispatch of `infer_node` on one node's type set: the
four transfer functions `pointer` / `flow` (default) / `attr` / `call`,
yielding the grown type set and the `changed` flag (and, for `call`, the
threaded resolver state). -/
def runBranch {σ : Type}
    (resolve : σ → Node → Ty → List Ty → Except Err (σ × Ty))
    (F : FieldLayout) (st : σ) (ctx : Ctx) (node : Node) (typeset : TypeSet) :
    Except Err (σ × TypeSet × Bool) :=
  match alookupD ctx.constraints node .flow with
  | .pointer =>
      match gatherAll ctx.context (ctx.graph.predecessors node) with
      | .error e => .error e
      | .ok tys =>
          match addAllTys typeset false (tys.map tyPointer) with
          | (ts', ch) => .ok (st, ts', ch)
  | .flow =>
      match gatherAll ctx.context (ctx.graph.predecessors node) with
      | .error e => .error e
      | .ok tys =>
          match addAllTys typeset false tys with
          | (ts', ch) => .ok (st, ts', ch)
  | .attr =>
      match ctx.graph.predecessors node with
      | [neighbor] =>
          match alookup ctx.metadata node with
          | some (.attrM attr) =>
              match alookup ctx.context neighbor with
              | none => .error .keyError
              | some pts => attrLoop F attr pts typeset false |>.map (fun r => (st, r))
          | _ => .error .keyError
      | _ => .error .valueError
  | .call =>
      match alookup ctx.metadata node with
      | some (.callM funcNode argNodes) =>
          match alookup ctx.context funcNode with
          | none => .error .keyError
          | some func_types =>
              match lookupList ctx.context argNodes with
              | .error e => .error e
              | .ok arg_typess =>
                  let pairs := func_types.flatMap
                    (fun ft => (productL arg_typess).map (fun ats => (ft, ats)))
                  callLoop resolve funcNode node pairs st typeset false []
      | _ => .error .keyError

/-- The type set a node starts a visit with: a `Type` instance used as a
graph node gets the fresh local singleton `set([node])` (flagged so it is
never written back); any other node reads its binding, raising `KeyError`
when the binding is absent. -/
def nodeTypeset (context : Bindings) : Node → Except Err (Bool × TypeSet)
  | .tylit t => .ok (true, [t])
  | n =>
      match alookup context n with
      | some ts => .ok (false, ts)
      | none => .error .keyError

/-- Source `infer_node`: infer types for a single node — fetch the node's type
set, dispatch on the constraint kind, and bind the grown set as the
node's new binding (the source mutates the bound set object in place, so
for an ordinary node the write-back is exactly the in-place growth; the
fresh set of a `Type`-instance node is discarded). -/
def infer_node {σ : Type}
    (resolve : σ → Node → Ty → List Ty → Except Err (σ × Ty))
    (F : FieldLayout) (st : σ) (ctx : Ctx) (node : Node) :
    Except Err (σ × Ctx × Bool) :=
  match nodeTypeset ctx.context node with
  | .error e => .error e
  | .ok (isLit, typeset) =>
      match runBranch resolve F st ctx node typeset with
      | .error e => .error e
      | .ok (st', ts', ch) =>
          .ok (st',
               if isLit then ctx else { ctx with context := ainsert ctx.context node ts' },
               ch)

/-- Source `infer_graph`: the worklist loop.  `W` starts as the graph's node list;
pop from the left, run the node's transfer, and on change push each
successor back on the left (`appendleft` in iteration order reverses
them).  The loop has no intrinsic bound, so it takes explicit fuel;
exhausting the fuel yields the distinguished `outOfFuel` error. -/
def infer_graph {σ : Type}
    (resolve : σ → Node → Ty → List Ty → Except Err (σ × Ty))
    (F : FieldLayout) :
    Nat → σ → Ctx → List Node → Except Err (σ × Ctx)
  | 0, _, _, _ => .error .outOfFuel
  | fuel + 1, st, ctx, W =>
      match W with
      | [] => .ok (st, ctx)
      | node :: rest =>
          match infer_node resolve F st ctx node with
          | .error e => .error e
          | .ok (st', ctx', changed) =>
              infer_graph resolve F fuel st' ctx'
                (if changed then (ctx'.graph.neighbors node).reverse ++ rest else rest)

/-- Python `isinstance(func_type, frozenset)`. -/
def Ty.isOset : Ty → Bool
  | .oset _ => true
  | _ => false

/-- A value returned by `infer`: either a `Context` or a `Signature`
(Python returns heterogeneous tuples of the two). -/
inductive Res where
  | ctxv : Ctx → Res
  | sigv : Ty → Res
  deriving DecidableEq

/-- Modelled from the spec: the inference cache (spec §3), whose class is
not under `src/` — two mappings, function → `Context`-template (`ctxs`,
read through `lookup_ctx`) and (function, argument types) → the cached
terminal value (`typings`, read through `lookup`, written by `infer`
exactly as line `cache.typings[func, argtypes] = signature, ctx` does). -/
structure Cache where
  ctxs : List (Nat × Ctx)
  typings : List ((Nat × List Ty) × (Res × Res))
  deriving DecidableEq

/-- Modelled from the spec: `cache.lookup(func, argtypes)` returns the
stored terminal value, or `None` on a miss. -/
def Cache.lookup (c : Cache) (f : Nat) (argtypes : List Ty) : Option (Res × Res) :=
  alookup c.typings (f, argtypes)

/-- Modelled from the spec: `cache.lookup_ctx(func)` returns the memoized
`Context`-template, or `None`. -/
def Cache.lookup_ctx (c : Cache) (f : Nat) : Option Ctx :=
  alookup c.ctxs f

/-- Python `reduce(promote, typeset)`: left fold without initializer; the empty
set raises (`reduce() of empty sequence`). -/
def reduceL (f : Ty → Ty → Ty) : List Ty → Except Err Ty
  | [] => .error (.typeError "reduce of empty sequence")
  | t :: rest => .ok (rest.foldl f t)

/-- Source `infer_call`: resolve one call.  `inferRec` is the recursive entry
point `infer(cache, func, arg_types)` (tied to the fuel-indexed `infer`
below).  Mirrors the source line by line: `func_type.name` raises
`AttributeError` on a `frozenset`; the `Method` branch rebinds
`func = func_type[0]` (the commented-out prepend of `self` is absent, so
`arg_types` is passed through unchanged); a non-`ir.Function` callee is a
higher-order call returning `func_type.params[0]`; a `frozenset` callee
type hits `raise NotImplemented(...)`, which in Python raises `TypeError`
because the `NotImplemented` singleton is not callable; otherwise recurse
and return `signature.params[0]`. -/
def infer_call
    (inferRec : Cache → Nat → List Ty → Except Err (Cache × (Res × Res)))
    (cache : Cache) (funcN : Node) (func_type : Ty) (arg_types : List Ty) :
    Except Err (Cache × Ty) :=
  match func_type.nameAttr with
  | none => .error (.attributeError "name")
  | some nm =>
      let dispatch : Except Err (Option Ty × Node) :=
        if nm = "Method" then
          match func_type.methParts with
          | some (fid, _self) => .ok (none, .funcref fid)
          | none => .error (.typeError "not subscriptable")
        else if ¬ funcN.isFuncref then
          match func_type.paramsAttr with
          | none => .error (.attributeError "params")
          | some ps =>
              match ps.head? with
              | none => .error .indexError
              | some restype => .ok (some restype, funcN)
        else .ok (none, funcN)
      match dispatch with
      | .error e => .error e
      | .ok (some restype, _) => .ok (cache, restype)
      | .ok (none, func) =>
          if func_type.isOset then
            .error (.typeError "NotImplementedType object is not callable")
          else
            match func with
            | .funcref fid =>
                match inferRec cache fid arg_types with
                | .error e => .error e
                | .ok (cache', (_ctxR, sigR)) =>
                    match sigR with
                    | .sigv sig =>
                        match sig.paramsAttr with
                        | none => .error (.attributeError "params")
                        | some ps =>
                            match ps.head? with
                            | none => .error .indexError
                            | some r => .ok (cache', r)
                    | .ctxv _ => .error (.attributeError "params")
            | _ => .error (.attributeError "ops")

/-- Source `infer(cache, func, argtypes)`: check the terminal cache (hit returns
the stored value as-is), look up or build and memoize the graph template,
copy and seed a fresh context, run the solver (whose call resolver
recurses into `infer` with one unit of fuel less), reduce the `'return'`
type set with `promote`, build `Function(restype, *argtypes)`, store
`(signature, ctx)` in the cache — note the order — and return
`(ctx, signature)`.  `prog` maps function references to IR functions,
`F` is the external field layout, `promote` the external binary join. -/
def infer (prog : List Func) (F : FieldLayout) (promote : Ty → Ty → Ty) :
    Nat → Cache → Nat → List Ty → Except Err (Cache × (Res × Res))
  | 0 => fun _ _ _ => .error .outOfFuel
  | fuel + 1 => fun cache f argtypes =>
      match cache.lookup f argtypes with
      | some cached => .ok (cache, cached)
      | none =>
          match (match cache.lookup_ctx f with
                 | some c => Except.ok (cache, c)
                 | none =>
                     match prog[f]? with
                     | none => .error Err.keyError
                     | some fn =>
                         match build_graph fn with
                         | .error e => .error e
                         | .ok c =>
                             .ok ({ cache with ctxs := ainsert cache.ctxs f c }, c)) with
          | .error e => .error e
          | .ok (cache, tmpl) =>
              let ctx := seed_context (Ctx.copy tmpl) argtypes
              match infer_graph
                  (fun c n ft ats => infer_call (infer prog F promote fuel) c n ft ats)
                  F fuel cache ctx ctx.graph.nodes with
              | .error e => .error e
              | .ok (cache, ctx) =>
                  match alookup ctx.context Node.ret with
                  | none => .error .keyError
                  | some typeset =>
                      match reduceL promote typeset with
                      | .error e => .error e
                      | .ok restype =>
                          let signature := Ty.con "Function" (restype :: argtypes)
                          .ok ({ cache with
                                 typings := ainsert cache.typings (f, argtypes)
                                   (.sigv signature, .ctxv ctx) },
                               (.ctxv ctx, .sigv signature))

/-! ### Lemmas about the basic set and dictionary operations -/

theorem TypeSet.mem_add {s : TypeSet} {t x : Ty} (hx : x ∈ s) : x ∈ s.add t := by
  unfold TypeSet.add
  split
  · exact hx
  · exact List.mem_append_left _ hx

theorem TypeSet.mem_add_iff {s : TypeSet} {t x : Ty} : x ∈ s.add t ↔ x ∈ s ∨ x = t := by
  unfold TypeSet.add
  split
  · rename_i h
    constructor
    · exact Or.inl
    · rintro (hx | rfl)
      · exact hx
      · exact h
  · simp [List.mem_append]

theorem TypeSet.add_length_le {s : TypeSet} {t : Ty} : s.length ≤ (s.add t).length := by
  unfold TypeSet.add
  split
  · exact Nat.le_refl _
  · simp

theorem TypeSet.add_length_lt {s : TypeSet} {t : Ty} (h : t ∉ s) :
    s.length < (s.add t).length := by
  unfold TypeSet.add
  split
  · exact absurd ‹t ∈ s› h
  · simp

theorem TypeSet.add_eq_of_mem {s : TypeSet} {t : Ty} (h : t ∈ s) : s.add t = s := by
  unfold TypeSet.add
  simp [h]

theorem TypeSet.add_nodup {s : TypeSet} {t : Ty} (h : s.Nodup) : (s.add t).Nodup := by
  unfold TypeSet.add
  split
  · exact h
  · rename_i hn
    simp [List.nodup_append, h, hn]

theorem alookup_ainsert {α β : Type} [DecidableEq α] (l : List (α × β)) (k : α) (v : β)
    (n : α) : alookup (ainsert l k v) n = if n = k then some v else alookup l n := by
  induction l with
  | nil => simp [ainsert, alookup]
  | cons p rest ih =>
      obtain ⟨a, b⟩ := p
      simp only [ainsert]
      by_cases hak : a = k
      · subst hak
        by_cases hna : n = a <;> simp [alookup, hna]
      · simp only [if_neg hak, alookup]
        by_cases hna : n = a
        · have hnk : ¬ n = k := fun h => hak (hna.symm.trans h)
          simp [hna, hnk, hak]
        · simp [hna, ih]

theorem ainsert_self {α β : Type} [DecidableEq α] {l : List (α × β)} {k : α} {v : β}
    (h : alookup l k = some v) : ainsert l k v = l := by
  induction l with
  | nil => simp [alookup] at h
  | cons p rest ih =>
      obtain ⟨a, b⟩ := p
      by_cases hka : k = a
      · subst hka
        simp only [alookup, if_pos rfl] at h
        injection h with h
        simp [ainsert, h]
      · simp only [alookup, if_neg hka] at h
        simp [ainsert, Ne.symm hka, ih h]

theorem copy_context_lookup (context : Bindings) (n : Node) :
    alookup (copy_context context) n = alookup context n := by
  induction context with
  | nil => rfl
  | cons p rest ih =>
      obtain ⟨a, b⟩ := p
      simp only [copy_context, List.map_cons, alookup]
      by_cases hna : n = a
      · simp [hna, List.map_id']
      · simp only [hna, if_false]
        exact ih

/-! ### Lemmas about the transfer-function folds -/

theorem addAllTys_mem {cand : List Ty} :
    ∀ {ts : TypeSet} {ch : Bool} {x : Ty}, x ∈ ts → x ∈ (addAllTys ts ch cand).1 := by
  induction cand with
  | nil => intro ts ch x hx; exact hx
  | cons t rest ih => intro ts ch x hx; exact ih (TypeSet.mem_add hx)

theorem addAllTys_length_le {cand : List Ty} :
    ∀ {ts : TypeSet} {ch : Bool}, ts.length ≤ (addAllTys ts ch cand).1.length := by
  induction cand with
  | nil => intro ts ch; exact Nat.le_refl _
  | cons t rest ih =>
      intro ts ch
      exact Nat.le_trans TypeSet.add_length_le ih

theorem addAllTys_false {cand : List Ty} :
    ∀ {ts : TypeSet} {ch : Bool}, (addAllTys ts ch cand).2 = false →
      (addAllTys ts ch cand).1 = ts ∧ ch = false := by
  induction cand with
  | nil => intro ts ch h; exact ⟨rfl, h⟩
  | cons t rest ih =>
      intro ts ch h
      simp only [addAllTys] at h ⊢
      obtain ⟨h1, h2⟩ := ih h
      rcases Bool.or_eq_false_iff.mp h2 with ⟨hch, hmem⟩
      have ht : t ∈ ts := by
        by_contra hc
        simp [hc] at hmem
      rw [TypeSet.add_eq_of_mem ht] at h1 ⊢
      exact ⟨h1, hch⟩

theorem addAllTys_nodup {cand : List Ty} :
    ∀ {ts : TypeSet} {ch : Bool}, ts.Nodup → (addAllTys ts ch cand).1.Nodup := by
  induction cand with
  | nil => intro ts ch h; exact h
  | cons t rest ih => intro ts ch h; exact ih (TypeSet.add_nodup h)

theorem addAllTys_subset {cand : List Ty} :
    ∀ {ts : TypeSet} {ch : Bool} {x : Ty},
      x ∈ (addAllTys ts ch cand).1 → x ∈ ts ∨ x ∈ cand := by
  induction cand with
  | nil => intro ts ch x hx; exact Or.inl hx
  | cons t rest ih =>
      intro ts ch x hx
      rcases ih hx with hx' | hx'
      · rcases TypeSet.mem_add_iff.mp hx' with h | rfl
        · exact Or.inl h
        · exact Or.inr (List.mem_cons_self x rest)
      · exact Or.inr (List.mem_cons_of_mem _ hx')

theorem addAllTys_true {cand : List Ty} :
    ∀ {ts : TypeSet}, (addAllTys ts false cand).2 = true →
      ts.length < (addAllTys ts false cand).1.length := by
  induction cand with
  | nil => intro ts h; simp [addAllTys] at h
  | cons t rest ih =>
      intro ts h
      simp only [addAllTys] at h ⊢
      by_cases ht : t ∈ ts
      · have hd : decide (t ∉ ts) = false := by simp [ht]
        rw [TypeSet.add_eq_of_mem ht, hd] at h ⊢
        simp only [Bool.or_false] at h ⊢
        exact ih h
      · calc ts.length < (ts.add t).length := TypeSet.add_length_lt ht
          _ ≤ _ := addAllTys_length_le

theorem attrLoop_ok_spec {F : FieldLayout} {attr : String} :
    ∀ {pts : List Ty} {ts : TypeSet} {ch : Bool} {ts' : TypeSet} {ch' : Bool},
      attrLoop F attr pts ts ch = .ok (ts', ch') →
      (∀ x ∈ ts, x ∈ ts') ∧ ts.length ≤ ts'.length ∧ (ts.Nodup → ts'.Nodup) ∧
        (ch' = false → ts' = ts ∧ ch = false) := by
  intro pts
  induction pts with
  | nil =>
      intro ts ch ts' ch' h
      simp only [attrLoop] at h
      injection h with h
      injection h with h1 h2
      subst h1; subst h2
      exact ⟨fun x hx => hx, Nat.le_refl _, fun h => h, fun hc => ⟨rfl, hc⟩⟩
  | cons t rest ih =>
      intro ts ch ts' ch' h
      simp only [attrLoop] at h
      split at h
      · exact absurd h (by simp)
      · rename_i v res heq
        obtain ⟨hmem, hlen, hnd, hfa⟩ := ih h
        refine ⟨fun x hx => hmem _ (TypeSet.mem_add hx),
                Nat.le_trans TypeSet.add_length_le hlen,
                fun hn => hnd (TypeSet.add_nodup hn), ?_⟩
        intro hc
        obtain ⟨he, hflag⟩ := hfa hc
        rcases Bool.or_eq_false_iff.mp hflag with ⟨hch, hdm⟩
        have hm : (if res.nameAttr = some "Function" then Ty.method v t else res) ∈ ts := by
          by_contra hcm
          simp [hcm] at hdm
        rw [TypeSet.add_eq_of_mem hm] at he
        exact ⟨he, hch⟩

theorem attrLoop_true {F : FieldLayout} {attr : String} :
    ∀ {pts : List Ty} {ts ts' : TypeSet},
      attrLoop F attr pts ts false = .ok (ts', true) → ts.length < ts'.length := by
  intro pts
  induction pts with
  | nil =>
      intro ts ts' h
      simp only [attrLoop] at h
      injection h with h
      injection h with _ h2
      exact absurd h2.symm (by simp)
  | cons t rest ih =>
      intro ts ts' h
      simp only [attrLoop] at h
      split at h
      · exact absurd h (by simp)
      · rename_i v res heq
        set result := if res.nameAttr = some "Function" then Ty.method v t else res with hres
        by_cases hm : result ∈ ts
        · rw [TypeSet.add_eq_of_mem hm] at h
          have hd : decide (result ∉ ts) = false := by simp [hm]
          rw [hd] at h
          simp only [Bool.or_false] at h
          exact ih h
        · calc ts.length < (ts.add result).length := TypeSet.add_length_lt hm
            _ ≤ ts'.length := (attrLoop_ok_spec h).2.1

theorem attrLoop_error {F : FieldLayout} {attr : String} :
    ∀ {pts : List Ty} {ts : TypeSet} {ch : Bool} {e : Err},
      attrLoop F attr pts ts ch = .error e → ∃ t, e = .inferError t attr := by
  intro pts
  induction pts with
  | nil => intro ts ch e h; exact absurd h (by simp [attrLoop])
  | cons t rest ih =>
      intro ts ch e h
      simp only [attrLoop] at h
      split at h
      · injection h with h
        exact ⟨t, h.symm⟩
      · exact ih h

theorem callLoop_ok_spec {σ : Type}
    {resolve : σ → Node → Ty → List Ty → Except Err (σ × Ty)} {funcNode node : Node} :
    ∀ {pairs : List (Ty × List Ty)} {st : σ} {ts : TypeSet} {ch : Bool}
      {processed : List (Node × Ty × List Ty)} {st' : σ} {ts' : TypeSet} {ch' : Bool},
      callLoop resolve funcNode node pairs st ts ch processed = .ok (st', ts', ch') →
      (∀ x ∈ ts, x ∈ ts') ∧ ts.length ≤ ts'.length ∧ (ts.Nodup → ts'.Nodup) ∧
        (ch' = false → ts' = ts ∧ ch = false) := by
  intro pairs
  induction pairs with
  | nil =>
      intro st ts ch processed st' ts' ch' h
      simp only [callLoop] at h
      injection h with h
      injection h with h1 h2
      injection h2 with h2 h3
      subst h2; subst h3
      exact ⟨fun x hx => hx, Nat.le_refl _, fun h => h, fun hc => ⟨rfl, hc⟩⟩
  | cons p rest ih =>
      intro st ts ch processed st' ts' ch' h
      obtain ⟨ft, ats⟩ := p
      simp only [callLoop] at h
      split at h
      · exact ih h
      · split at h
        · exact absurd h (by simp)
        · rename_i st'' result heq
          obtain ⟨hmem, hlen, hnd, hfa⟩ := ih h
          refine ⟨fun x hx => hmem _ (TypeSet.mem_add hx),
                  Nat.le_trans TypeSet.add_length_le hlen,
                  fun hn => hnd (TypeSet.add_nodup hn), ?_⟩
          intro hc
          obtain ⟨he, hflag⟩ := hfa hc
          rcases Bool.or_eq_false_iff.mp hflag with ⟨hch, hdm⟩
          have hm : result ∈ ts := by
            by_contra hcm
            simp [hcm] at hdm
          rw [TypeSet.add_eq_of_mem hm] at he
          exact ⟨he, hch⟩

theorem callLoop_true {σ : Type}
    {resolve : σ → Node → Ty → List Ty → Except Err (σ × Ty)} {funcNode node : Node} :
    ∀ {pairs : List (Ty × List Ty)} {st : σ} {ts : TypeSet}
      {processed : List (Node × Ty × List Ty)} {st' : σ} {ts' : TypeSet},
      callLoop resolve funcNode node pairs st ts false processed = .ok (st', ts', true) →
      ts.length < ts'.length := by
  intro pairs
  induction pairs with
  | nil =>
      intro st ts processed st' ts' h
      simp only [callLoop] at h
      injection h with h
      injection h with h1 h2
      injection h2 with h2 h3
      exact absurd h3.symm (by simp)
  | cons p rest ih =>
      intro st ts processed st' ts' h
      obtain ⟨ft, ats⟩ := p
      simp only [callLoop] at h
      split at h
      · exact ih h
      · split at h
        · exact absurd h (by simp)
        · rename_i st'' result heq
          by_cases hm : result ∈ ts
          · rw [TypeSet.add_eq_of_mem hm] at h
            have hd : decide (result ∉ ts) = false := by simp [hm]
            rw [hd] at h
            simp only [Bool.or_false] at h
            exact ih h
          · calc ts.length < (ts.add result).length := TypeSet.add_length_lt hm
              _ ≤ ts'.length := (callLoop_ok_spec h).2.1

theorem callLoop_error {σ : Type}
    {resolve : σ → Node → Ty → List Ty → Except Err (σ × Ty)} {funcNode node : Node}
    (Hres : ∀ (st : σ) (n : Node) (ft : Ty) (ats : List Ty),
      resolve st n ft ats ≠ .error .outOfFuel) :
    ∀ {pairs : List (Ty × List Ty)} {st : σ} {ts : TypeSet} {ch : Bool}
      {processed : List (Node × Ty × List Ty)} {e : Err},
      callLoop resolve funcNode node pairs st ts ch processed = .error e →
      e ≠ .outOfFuel := by
  intro pairs
  induction pairs with
  | nil => intro st ts ch processed e h; exact absurd h (by simp [callLoop])
  | cons p rest ih =>
      intro st ts ch processed e h
      obtain ⟨ft, ats⟩ := p
      simp only [callLoop] at h
      split at h
      · exact ih h
      · split at h
        · rename_i e' heq
          injection h with h
          subst h
          intro hc
          exact Hres st funcNode ft ats (hc ▸ heq)
        · exact ih h

theorem gatherAll_error {context : Bindings} :
    ∀ {preds : List Node} {e : Err},
      gatherAll context preds = .error e → e = .keyError := by
  intro preds
  induction preds with
  | nil => intro e h; exact absurd h (by simp [gatherAll])
  | cons n rest ih =>
      intro e h
      simp only [gatherAll] at h
      split at h
      · injection h with h; exact h.symm
      · split at h
        · rename_i e' heq
          injection h with h
          exact h ▸ ih heq
        · exact absurd h (by simp)

theorem gatherAll_mem {context : Bindings} :
    ∀ {preds : List Node} {tys : List Ty},
      gatherAll context preds = .ok tys →
      ∀ t ∈ tys, ∃ n ∈ preds, ∃ ts, alookup context n = some ts ∧ t ∈ ts := by
  intro preds
  induction preds with
  | nil =>
      intro tys h t ht
      simp only [gatherAll] at h
      injection h with h
      subst h
      exact absurd ht (by simp)
  | cons n rest ih =>
      intro tys h t ht
      simp only [gatherAll] at h
      split at h
      · exact absurd h (by simp)
      · rename_i ts hts
        split at h
        · exact absurd h (by simp)
        · rename_i tys' htys
          injection h with h
          subst h
          rcases List.mem_append.mp ht with hl | hr
          · exact ⟨n, List.mem_cons_self n rest, ts, hts, hl⟩
          · obtain ⟨m, hm, ts₂, hts₂, htm⟩ := ih htys t hr
            exact ⟨m, List.mem_cons_of_mem _ hm, ts₂, hts₂, htm⟩

theorem lookupList_error {context : Bindings} :
    ∀ {ns : List Node} {e : Err},
      lookupList context ns = .error e → e = .keyError := by
  intro ns
  induction ns with
  | nil => intro e h; exact absurd h (by simp [lookupList])
  | cons n rest ih =>
      intro e h
      simp only [lookupList] at h
      split at h
      · injection h with h; exact h.symm
      · split at h
        · rename_i e' heq
          injection h with h
          exact h ▸ ih heq
        · exact absurd h (by simp)

theorem nodeTypeset_ok {context : Bindings} {node : Node} {isLit : Bool}
    {typeset : TypeSet} (h : nodeTypeset context node = .ok (isLit, typeset)) :
    (∃ t, node = .tylit t ∧ isLit = true ∧ typeset = [t]) ∨
      (isLit = false ∧ alookup context node = some typeset) := by
  cases node
  case tylit t =>
      simp only [nodeTypeset] at h
      injection h with h
      injection h with h1 h2
      exact Or.inl ⟨t, rfl, h1.symm, h2.symm⟩
  all_goals
    · simp only [nodeTypeset] at h
      split at h
      · rename_i ts hts
        injection h with h
        injection h with h1 h2
        exact Or.inr ⟨h1.symm, h2 ▸ hts⟩
      · exact absurd h (by simp)

theorem nodeTypeset_error {context : Bindings} {node : Node} {e : Err}
    (h : nodeTypeset context node = .error e) : e = .keyError := by
  cases node
  case tylit t => exact absurd h (by simp [nodeTypeset])
  all_goals
    · simp only [nodeTypeset] at h
      split at h
      · exact absurd h (by simp)
      · injection h with h
        exact h.symm

theorem runBranch_ok_spec {σ : Type}
    {resolve : σ → Node → Ty → List Ty → Except Err (σ × Ty)} {F : FieldLayout}
    {st : σ} {ctx : Ctx} {node : Node} {typeset : TypeSet} {st' : σ}
    {ts' : TypeSet} {ch : Bool}
    (h : runBranch resolve F st ctx node typeset = .ok (st', ts', ch)) :
    (∀ x ∈ typeset, x ∈ ts') ∧ typeset.length ≤ ts'.length ∧
      (typeset.Nodup → ts'.Nodup) ∧ (ch = false → ts' = typeset) ∧
      (ch = true → typeset.length < ts'.length) := by
  unfold runBranch at h
  split at h
  · -- pointer
    split at h
    · exact absurd h (by simp)
    · rename_i tys heq
      rcases hp : addAllTys typeset false (tys.map tyPointer) with ⟨a, b⟩
      rw [hp] at h
      injection h with h
      injection h with h1 h2
      injection h2 with h2 h3
      subst h2; subst h3
      refine ⟨fun x hx => ?_, ?_, fun hn => ?_, fun hc => ?_, fun hc => ?_⟩
      · have := @addAllTys_mem (tys.map tyPointer) typeset false x hx
        rw [hp] at this; exact this
      · have := @addAllTys_length_le (tys.map tyPointer) typeset false
        rw [hp] at this; exact this
      · have := @addAllTys_nodup (tys.map tyPointer) typeset false hn
        rw [hp] at this; exact this
      · have := @addAllTys_false (tys.map tyPointer) typeset false
        rw [hp] at this
        exact (this hc).1
      · have := @addAllTys_true (tys.map tyPointer) typeset
        rw [hp] at this
        exact this hc
  · -- flow
    split at h
    · exact absurd h (by simp)
    · rename_i tys heq
      rcases hp : addAllTys typeset false tys with ⟨a, b⟩
      rw [hp] at h
      injection h with h
      injection h with h1 h2
      injection h2 with h2 h3
      subst h2; subst h3
      refine ⟨fun x hx => ?_, ?_, fun hn => ?_, fun hc => ?_, fun hc => ?_⟩
      · have := @addAllTys_mem tys typeset false x hx
        rw [hp] at this; exact this
      · have := @addAllTys_length_le tys typeset false
        rw [hp] at this; exact this
      · have := @addAllTys_nodup tys typeset false hn
        rw [hp] at this; exact this
      · have := @addAllTys_false tys typeset false
        rw [hp] at this
        exact (this hc).1
      · have := @addAllTys_true tys typeset
        rw [hp] at this
        exact this hc
  · -- attr
    split at h
    · rename_i neighbor
      split at h
      · rename_i attr hmd
        split at h
        · exact absurd h (by simp)
        · rename_i pts hpts
          rcases hal : attrLoop F attr pts typeset false with e | ⟨a, b⟩
          · rw [hal] at h
            exact absurd h (by simp [Except.map])
          · rw [hal] at h
            simp only [Except.map] at h
            injection h with h
            injection h with h1 h2
            injection h2 with h2 h3
            subst h2; subst h3
            obtain ⟨hm, hl, hn, hf⟩ := attrLoop_ok_spec hal
            refine ⟨hm, hl, hn, fun hc => (hf hc).1, fun hc => ?_⟩
            subst hc
            exact attrLoop_true hal
      · exact absurd h (by simp)
    · exact absurd h (by simp)
  · -- call
    split at h
    · rename_i funcNode argNodes hmd
      split at h
      · exact absurd h (by simp)
      · rename_i func_types hft
        split at h
        · exact absurd h (by simp)
        · rename_i arg_typess hargs
          obtain ⟨hm, hl, hn, hf⟩ := callLoop_ok_spec h
          refine ⟨hm, hl, hn, fun hc => (hf hc).1, fun hc => ?_⟩
          subst hc
          exact callLoop_true h
    · exact absurd h (by simp)

theorem runBranch_error {σ : Type}
    {resolve : σ → Node → Ty → List Ty → Except Err (σ × Ty)} {F : FieldLayout}
    {st : σ} {ctx : Ctx} {node : Node} {typeset : TypeSet} {e : Err}
    (Hres : ∀ (st : σ) (n : Node) (ft : Ty) (ats : List Ty),
      resolve st n ft ats ≠ .error .outOfFuel)
    (h : runBranch resolve F st ctx node typeset = .error e) : e ≠ .outOfFuel := by
  unfold runBranch at h
  split at h
  · split at h
    · rename_i e' heq
      injection h with h
      subst h
      rw [gatherAll_error heq]
      simp
    · rcases hp : addAllTys typeset false _ with ⟨a, b⟩
      rw [hp] at h
      exact absurd h (by simp)
  · split at h
    · rename_i e' heq
      injection h with h
      subst h
      rw [gatherAll_error heq]
      simp
    · rcases hp : addAllTys typeset false _ with ⟨a, b⟩
      rw [hp] at h
      exact absurd h (by simp)
  · split at h
    · split at h
      · split at h
        · injection h with h
          subst h
          simp
        · rcases hal : attrLoop F _ _ typeset false with e' | ⟨a, b⟩
          · rw [hal] at h
            simp only [Except.map] at h
            injection h with h
            subst h
            obtain ⟨t, ht⟩ := attrLoop_error hal
            subst ht
            simp
          · rw [hal] at h
            exact absurd h (by simp [Except.map])
      · injection h with h
        subst h
        simp
    · injection h with h
      subst h
      simp
  · split at h
    · split at h
      · injection h with h
        subst h
        simp
      · split at h
        · rename_i e' heq
          injection h with h
          subst h
          rw [lookupList_error heq]
          simp
        · exact callLoop_error Hres h
    · injection h with h
      subst h
      simp


theorem infer_node_ok_cases {σ : Type}
    {resolve : σ → Node → Ty → List Ty → Except Err (σ × Ty)} {F : FieldLayout}
    {st : σ} {ctx : Ctx} {node : Node} {st' : σ} {ctx' : Ctx} {ch : Bool}
    (h : infer_node resolve F st ctx node = .ok (st', ctx', ch)) :
    (∃ t ts', node = .tylit t ∧ ctx' = ctx ∧
        runBranch resolve F st ctx node [t] = .ok (st', ts', ch)) ∨
      (∃ typeset ts', alookup ctx.context node = some typeset ∧
        runBranch resolve F st ctx node typeset = .ok (st', ts', ch) ∧
        ctx' = { ctx with context := ainsert ctx.context node ts' }) := by
  unfold infer_node at h
  rcases hnt : nodeTypeset ctx.context node with e | ⟨isLit, typeset⟩ <;> rw [hnt] at h
  · exact absurd h (by simp)
  · dsimp only at h
    rcases hrb : runBranch resolve F st ctx node typeset with e | ⟨st'', ts'', ch''⟩ <;>
      rw [hrb] at h
    · exact absurd h (by simp)
    · dsimp only at h
      injection h with h
      injection h with h1 h2
      injection h2 with h2 h3
      subst h1; subst h3
      rcases nodeTypeset_ok hnt with ⟨t, hn, hLit, hts⟩ | ⟨hLit, hts⟩
      · subst hLit
        subst hts
        simp only [if_pos rfl] at h2
        exact Or.inl ⟨t, ts'', hn, h2.symm, hrb⟩
      · subst hLit
        simp only [Bool.false_eq_true, if_neg] at h2
        exact Or.inr ⟨typeset, ts'', hts, hrb, h2.symm⟩

theorem infer_node_frame {σ : Type}
    {resolve : σ → Node → Ty → List Ty → Except Err (σ × Ty)} {F : FieldLayout}
    {st : σ} {ctx : Ctx} {node : Node} {st' : σ} {ctx' : Ctx} {ch : Bool}
    (h : infer_node resolve F st ctx node = .ok (st', ctx', ch)) :
    ctx'.func = ctx.func ∧ ctx'.graph = ctx.graph ∧
      ctx'.constraints = ctx.constraints ∧ ctx'.metadata = ctx.metadata := by
  rcases infer_node_ok_cases h with ⟨t, ts', _, hctx, _⟩ | ⟨ts, ts', _, _, hctx⟩ <;>
    subst hctx <;> exact ⟨rfl, rfl, rfl, rfl⟩

theorem infer_node_error {σ : Type}
    {resolve : σ → Node → Ty → List Ty → Except Err (σ × Ty)} {F : FieldLayout}
    {st : σ} {ctx : Ctx} {node : Node} {e : Err}
    (Hres : ∀ (st : σ) (n : Node) (ft : Ty) (ats : List Ty),
      resolve st n ft ats ≠ .error .outOfFuel)
    (h : infer_node resolve F st ctx node = .error e) : e ≠ .outOfFuel := by
  unfold infer_node at h
  rcases hnt : nodeTypeset ctx.context node with e' | ⟨isLit, typeset⟩ <;> rw [hnt] at h
  · injection h with h
    subst h
    rw [nodeTypeset_error hnt]
    simp
  · dsimp only at h
    rcases hrb : runBranch resolve F st ctx node typeset with e' | ⟨st'', ts'', ch''⟩ <;>
      rw [hrb] at h
    · injection h with h
      subst h
      exact runBranch_error Hres hrb
    · exact absurd h (by simp)

theorem infer_node_mono {σ : Type}
    {resolve : σ → Node → Ty → List Ty → Except Err (σ × Ty)} {F : FieldLayout}
    {st : σ} {ctx : Ctx} {node : Node} {st' : σ} {ctx' : Ctx} {ch : Bool}
    (h : infer_node resolve F st ctx node = .ok (st', ctx', ch)) :
    ∀ n ts, alookup ctx.context n = some ts →
      ∃ ts', alookup ctx'.context n = some ts' ∧ (∀ t ∈ ts, t ∈ ts') ∧
        ts.length ≤ ts'.length := by
  intro n ts hts
  rcases infer_node_ok_cases h with ⟨t, ts', _, hctx, _⟩ | ⟨typeset, ts', hty, hrb, hctx⟩
  · subst hctx
    exact ⟨ts, hts, fun t ht => ht, Nat.le_refl _⟩
  · subst hctx
    simp only [alookup_ainsert]
    by_cases hn : n = node
    · subst hn
      rw [hty] at hts
      injection hts with hts
      subst hts
      obtain ⟨hm, hl, _, _, _⟩ := runBranch_ok_spec hrb
      exact ⟨ts', by simp, hm, hl⟩
    · rw [if_neg hn]
      exact ⟨ts, hts, fun t ht => ht, Nat.le_refl _⟩

theorem infer_node_unchanged {σ : Type}
    {resolve : σ → Node → Ty → List Ty → Except Err (σ × Ty)} {F : FieldLayout}
    {st : σ} {ctx : Ctx} {node : Node} {st' : σ} {ctx' : Ctx}
    (h : infer_node resolve F st ctx node = .ok (st', ctx', false)) :
    ctx'.context = ctx.context := by
  rcases infer_node_ok_cases h with ⟨t, ts', _, hctx, _⟩ | ⟨typeset, ts', hty, hrb, hctx⟩
  · subst hctx; rfl
  · subst hctx
    obtain ⟨_, _, _, hf, _⟩ := runBranch_ok_spec hrb
    simp only [hf rfl]
    exact ainsert_self hty

theorem infer_node_changed {σ : Type}
    {resolve : σ → Node → Ty → List Ty → Except Err (σ × Ty)} {F : FieldLayout}
    {st : σ} {ctx : Ctx} {node : Node} {st' : σ} {ctx' : Ctx}
    (hnl : ∀ t, node ≠ Node.tylit t)
    (h : infer_node resolve F st ctx node = .ok (st', ctx', true)) :
    ∃ typeset ts', alookup ctx.context node = some typeset ∧
      typeset.length < ts'.length ∧ (typeset.Nodup → ts'.Nodup) ∧
      ctx'.context = ainsert ctx.context node ts' := by
  rcases infer_node_ok_cases h with ⟨t, _, hn, _, _⟩ | ⟨typeset, ts', hty, hrb, hctx⟩
  · exact absurd hn (hnl t)
  · obtain ⟨_, _, hnd, _, hlt⟩ := runBranch_ok_spec hrb
    exact ⟨typeset, ts', hty, hlt rfl, hnd, by rw [hctx]⟩

theorem infer_node_tylit {σ : Type}
    {resolve : σ → Node → Ty → List Ty → Except Err (σ × Ty)} {F : FieldLayout}
    {st : σ} (ctx : Ctx) {t : Ty}
    (h1 : ctx.graph.predecessors (Node.tylit t) = [])
    (h2 : alookupD ctx.constraints (Node.tylit t) .flow = .flow) :
    infer_node resolve F st ctx (.tylit t) = .ok (st, ctx, false) := by
  unfold infer_node nodeTypeset runBranch
  rw [h1, h2]
  simp [gatherAll, addAllTys]

theorem infer_graph_frame {σ : Type}
    {resolve : σ → Node → Ty → List Ty → Except Err (σ × Ty)} {F : FieldLayout} :
    ∀ {fuel : Nat} {st : σ} {ctx : Ctx} {W : List Node} {st' : σ} {ctx' : Ctx},
      infer_graph resolve F fuel st ctx W = .ok (st', ctx') →
      ctx'.func = ctx.func ∧ ctx'.graph = ctx.graph ∧
        ctx'.constraints = ctx.constraints ∧ ctx'.metadata = ctx.metadata := by
  intro fuel
  induction fuel with
  | zero => intro st ctx W st' ctx' h; exact absurd h (by simp [infer_graph])
  | succ n ih =>
      intro st ctx W st' ctx' h
      simp only [infer_graph] at h
      split at h
      · injection h with h
        injection h with h1 h2
        subst h2
        exact ⟨rfl, rfl, rfl, rfl⟩
      · split at h
        · exact absurd h (by simp)
        · rename_i node rest st'' ctx'' changed heq
          obtain ⟨f1, f2, f3, f4⟩ := infer_node_frame heq
          obtain ⟨g1, g2, g3, g4⟩ := ih h
          exact ⟨g1.trans f1, g2.trans f2, g3.trans f3, g4.trans f4⟩

/-! ### Termination of the worklist fixpoint -/

/-- Every binding is a duplicate-free set drawn from the finite type
universe `U` — the formal counterpart of "the universe of types reachable
within one inference run is finite". -/
def BoundedB (U : List Ty) (bnd : Bindings) : Prop :=
  ∀ n ts, alookup bnd n = some ts → ts.Nodup ∧ ∀ t ∈ ts, t ∈ U

/-- The total remaining growth capacity of the bindings relative to `U`. -/
def slackB (U : List Ty) (bnd : Bindings) : Nat :=
  (bnd.map (fun p => U.length - p.2.length)).sum

theorem BoundedB.len_le {U : List Ty} {bnd : Bindings} (h : BoundedB U bnd)
    {n : Node} {ts : TypeSet} (hl : alookup bnd n = some ts) :
    ts.length ≤ U.length := by
  obtain ⟨hnd, hsub⟩ := h n ts hl
  exact (List.subperm_of_subset hnd (fun t ht => hsub t ht)).length_le

theorem slackB_ainsert_lt {U : List Ty} {bnd : Bindings} {node : Node}
    {ts ts' : TypeSet} (hl : alookup bnd node = some ts)
    (hlt : ts.length < ts'.length) (hle : ts'.length ≤ U.length) :
    slackB U (ainsert bnd node ts') < slackB U bnd := by
  induction bnd with
  | nil => simp [alookup] at hl
  | cons p rest ih =>
      obtain ⟨a, b⟩ := p
      by_cases hna : node = a
      · subst hna
        simp only [alookup, if_pos rfl] at hl
        injection hl with hl
        subst hl
        have hb : b.length < U.length := Nat.lt_of_lt_of_le hlt hle
        simp [ainsert, slackB]
        omega
      · simp only [alookup, if_neg hna] at hl
        simp only [ainsert]
        rw [if_neg (fun h => hna h.symm)]
        simp only [slackB, List.map_cons, List.sum_cons]
        exact Nat.add_lt_add_left (ih hl) _

theorem runBranch_flow_subset {σ : Type}
    {resolve : σ → Node → Ty → List Ty → Except Err (σ × Ty)} {F : FieldLayout}
    {st : σ} (ctx : Ctx) {node : Node} {typeset : TypeSet} {st' : σ}
    {ts' : TypeSet} {ch : Bool}
    (hC : alookupD ctx.constraints node .flow = .flow)
    (h : runBranch resolve F st ctx node typeset = .ok (st', ts', ch)) :
    ∃ tys, gatherAll ctx.context (ctx.graph.predecessors node) = .ok tys ∧
      ∀ x ∈ ts', x ∈ typeset ∨ x ∈ tys := by
  unfold runBranch at h
  rw [hC] at h
  dsimp only at h
  split at h
  · exact absurd h (by simp)
  · rename_i tys heq
    rcases hp : addAllTys typeset false tys with ⟨a, b⟩
    rw [hp] at h
    injection h with h
    injection h with h1 h2
    injection h2 with h2 h3
    subst h2
    refine ⟨tys, heq, fun x hx => ?_⟩
    have := @addAllTys_subset tys typeset false x
    rw [hp] at this
    exact this hx

/-- When every constraint defaults to `flow`, one `infer_node` step keeps
all bindings inside the universe `U` (the preservation hypothesis of the
termination theorem, discharged for flow-only graphs). -/
theorem infer_node_flow_bounded {σ : Type}
    {resolve : σ → Node → Ty → List Ty → Except Err (σ × Ty)} {F : FieldLayout}
    {U : List Ty} (ctx0 : Ctx)
    (hall : ∀ n, alookupD ctx0.constraints n CKind.flow = CKind.flow) :
    ∀ (st : σ) (bnd : Bindings) (node : Node) (st' : σ) (ctx' : Ctx) (ch : Bool),
      BoundedB U bnd →
      infer_node resolve F st { ctx0 with context := bnd } node = .ok (st', ctx', ch) →
      BoundedB U ctx'.context := by
  intro st bnd node st' ctx' ch hB h
  rcases infer_node_ok_cases h with ⟨t, ts', hn, hctx, hrb⟩ | ⟨typeset, ts', hty, hrb, hctx⟩
  · subst hctx
    exact hB
  · obtain ⟨hnd0, hsub0⟩ := hB node typeset hty
    obtain ⟨tys, hg, hsub⟩ :=
      runBranch_flow_subset { ctx0 with context := bnd } (hall node) hrb
    obtain ⟨_, _, hnd, _, _⟩ := runBranch_ok_spec hrb
    subst hctx
    intro n ts hts
    simp only [alookup_ainsert] at hts
    by_cases hne : n = node
    · rw [if_pos hne] at hts
      injection hts with hts
      subst hts
      refine ⟨hnd hnd0, fun t ht => ?_⟩
      rcases hsub t ht with hx | hx
      · exact hsub0 t hx
      · obtain ⟨m, _, ts₂, hts₂, htm⟩ := gatherAll_mem hg t hx
        exact (hB m ts₂ hts₂).2 t htm
    · rw [if_neg hne] at hts
      exact hB n ts hts

/-- The worklist loop makes progress: with fuel one more than the measure
`|W| + (D + 1) · slack`, the loop finishes (successfully or with a real
exception) rather than running out of fuel. -/
theorem infer_graph_progress {σ : Type}
    {resolve : σ → Node → Ty → List Ty → Except Err (σ × Ty)} {F : FieldLayout}
    (U : List Ty) (D : Nat) (ctx0 : Ctx)
    (Hres : ∀ (st : σ) (n : Node) (ft : Ty) (ats : List Ty),
      resolve st n ft ats ≠ .error .outOfFuel)
    (Hpres : ∀ (st : σ) (bnd : Bindings) (node : Node) (st' : σ) (ctx' : Ctx) (ch : Bool),
      BoundedB U bnd →
      infer_node resolve F st { ctx0 with context := bnd } node = .ok (st', ctx', ch) →
      BoundedB U ctx'.context)
    (HD : ∀ n, (ctx0.graph.neighbors n).length ≤ D)
    (Hty1 : ∀ t, ctx0.graph.predecessors (.tylit t) = [])
    (Hty2 : ∀ t, alookupD ctx0.constraints (.tylit t) .flow = .flow) :
    ∀ (n : Nat) (st : σ) (bnd : Bindings) (W : List Node),
      BoundedB U bnd →
      W.length + (D + 1) * slackB U bnd ≤ n →
      infer_graph resolve F (n + 1) st { ctx0 with context := bnd } W ≠ .error .outOfFuel := by
  intro n
  induction n using Nat.strong_induction_on with
  | _ n ih =>
      intro st bnd W hB hm
      simp only [infer_graph]
      cases W with
      | nil => simp
      | cons node rest =>
          have hn1 : 1 ≤ n := by
            simp only [List.length_cons] at hm
            omega
          obtain ⟨m, rfl⟩ : ∃ m, n = m + 1 := ⟨n - 1, by omega⟩
          dsimp only
          rcases hin : infer_node resolve F st { ctx0 with context := bnd } node with
            e | ⟨st', ctx', ch⟩
          · simp only [hin]
            intro hc
            injection hc with hc
            exact infer_node_error Hres hin hc
          · simp only [hin]
            obtain ⟨f1, f2, f3, f4⟩ := infer_node_frame hin
            have hctxe : ctx' = { ctx0 with context := ctx'.context } := by
              cases ctx'
              simp_all
            cases ch with
            | false =>
                have hbc : ctx'.context = bnd := infer_node_unchanged hin
                rw [if_neg (by simp)]
                rw [hctxe, hbc]
                apply ih m (by omega) st' bnd rest hB
                simp only [List.length_cons] at hm
                omega
            | true =>
                by_cases htl : ∃ t, node = Node.tylit t
                · obtain ⟨t, rfl⟩ := htl
                  rw [infer_node_tylit { ctx0 with context := bnd }
                        (Hty1 t) (Hty2 t)] at hin
                  exact absurd hin (by simp)
                · have hnl : ∀ t, node ≠ Node.tylit t := fun t hc => htl ⟨t, hc⟩
                  obtain ⟨typeset, ts', hty, hlt, hnd, hctxc⟩ := infer_node_changed hnl hin
                  have hB' : BoundedB U ctx'.context :=
                    Hpres st bnd node st' ctx' true hB hin
                  have hle : ts'.length ≤ U.length := by
                    apply hB'.len_le (n := node)
                    rw [hctxc, alookup_ainsert, if_pos rfl]
                  have hsl : slackB U (ainsert bnd node ts') < slackB U bnd :=
                    slackB_ainsert_lt hty hlt hle
                  rw [if_pos rfl]
                  have hWl : ((ctx'.graph.neighbors node).reverse ++ rest).length +
                      (D + 1) * slackB U (ainsert bnd node ts') ≤ m := by
                    have hW : ((ctx'.graph.neighbors node).reverse ++ rest).length ≤
                        D + rest.length := by
                      rw [List.length_append, List.length_reverse, f2]
                      show (ctx0.graph.neighbors node).length + rest.length ≤
                        D + rest.length
                      have := HD node
                      omega
                    have hmul : (D + 1) * slackB U (ainsert bnd node ts') + (D + 1) ≤
                        (D + 1) * slackB U bnd := by
                      have h1 : slackB U (ainsert bnd node ts') + 1 ≤ slackB U bnd := hsl
                      calc (D + 1) * slackB U (ainsert bnd node ts') + (D + 1)
                          = (D + 1) * (slackB U (ainsert bnd node ts') + 1) := by ring
                        _ ≤ (D + 1) * slackB U bnd := Nat.mul_le_mul_left _ h1
                    simp only [List.length_cons] at hm
                    omega
                  revert hWl
                  generalize ((ctx'.graph.neighbors node).reverse ++ rest) = W2
                  intro hWl
                  rw [hctxe, hctxc]
                  exact ih m (by omega) st' (ainsert bnd node ts') W2 (hctxc ▸ hB') hWl

/-- C6: termination of the worklist solver — for a finite constraint
graph whose type universe within one run is finite (hypothesis `Hpres`:
one transfer step keeps every binding inside the finite universe `U`,
the formal counterpart of "the universe of types reachable from the seed
argument types, field-layout declared types and conversion target types
is finite"), with bounded fan-out `D` and `Type`-literal nodes being
unconstrained sources (as `build_graph` produces them), the worklist loop
empties after finitely many iterations: some finite fuel lets
`infer_graph` finish, successfully or with a genuine inference failure,
rather than consuming fuel forever. -/
theorem infer_graph_terminates {σ : Type}
    {resolve : σ → Node → Ty → List Ty → Except Err (σ × Ty)} {F : FieldLayout}
    (U : List Ty) (D : Nat) (ctx : Ctx) (st : σ) (W : List Node)
    (Hres : ∀ (st : σ) (n : Node) (ft : Ty) (ats : List Ty),
      resolve st n ft ats ≠ .error .outOfFuel)
    (Hpres : ∀ (st : σ) (bnd : Bindings) (node : Node) (st' : σ) (ctx' : Ctx) (ch : Bool),
      BoundedB U bnd →
      infer_node resolve F st { ctx with context := bnd } node = .ok (st', ctx', ch) →
      BoundedB U ctx'.context)
    (HB : BoundedB U ctx.context)
    (HD : ∀ n, (ctx.graph.neighbors n).length ≤ D)
    (Hty1 : ∀ t, ctx.graph.predecessors (.tylit t) = [])
    (Hty2 : ∀ t, alookupD ctx.constraints (.tylit t) .flow = .flow) :
    ∃ fuel, infer_graph resolve F fuel st ctx W ≠ .error .outOfFuel := by
  refine ⟨W.length + (D + 1) * slackB U ctx.context + 1, ?_⟩
  have := infer_graph_progress U D ctx Hres Hpres HD Hty1 Hty2
    (W.length + (D + 1) * slackB U ctx.context) st ctx.context W HB (Nat.le_refl _)
  exact this

/-! ### Instrumented resolution, attr failure, and seeding lemmas -/

/-- An instrumented resolver oracle: returns `R`'s result type and records
the invocation in the threaded resolver state, so the exact sequence of
Call-Resolver invocations performed by the `call` transfer becomes
observable. -/
def logResolve (R : Node → Ty → List Ty → Ty) :
    List (Node × Ty × List Ty) → Node → Ty → List Ty →
    Except Err (List (Node × Ty × List Ty) × Ty) :=
  fun log n ft ats => .ok (log ++ [(n, ft, ats)], R n ft ats)

theorem TypeSet.mem_add_self {s : TypeSet} {t : Ty} : t ∈ s.add t :=
  TypeSet.mem_add_iff.mpr (Or.inr rfl)

theorem foldl_add_preserves (g : Ty × List Ty → Ty) :
    ∀ (pairs : List (Ty × List Ty)) (ts : TypeSet) (x : Ty), x ∈ ts →
      x ∈ pairs.foldl (fun ts p => ts.add (g p)) ts := by
  intro pairs
  induction pairs with
  | nil => intro ts x hx; exact hx
  | cons q rest ih =>
      intro ts x hx
      exact ih (ts.add (g q)) x (TypeSet.mem_add hx)

theorem foldl_add_mem (g : Ty × List Ty → Ty) :
    ∀ (pairs : List (Ty × List Ty)) (ts : TypeSet) (p : Ty × List Ty), p ∈ pairs →
      g p ∈ pairs.foldl (fun ts p => ts.add (g p)) ts := by
  intro pairs
  induction pairs with
  | nil => intro ts p hp; exact absurd hp (by simp)
  | cons q rest ih =>
      intro ts p hp
      rcases List.mem_cons.mp hp with rfl | hmem
      · exact foldl_add_preserves g rest (ts.add (g p)) (g p) TypeSet.mem_add_self
      · exact ih (ts.add (g q)) p hmem

theorem callLoop_logResolve {R : Node → Ty → List Ty → Ty} {funcNode node : Node} :
    ∀ {pairs : List (Ty × List Ty)} {log : List (Node × Ty × List Ty)}
      {ts : TypeSet} {ch : Bool} {processed : List (Node × Ty × List Ty)},
      (∀ p ∈ pairs, ((node, p.1, p.2) : Node × Ty × List Ty) ∉ processed) →
      (pairs.map (fun p => ((node, p.1, p.2) : Node × Ty × List Ty))).Nodup →
      ∃ ch', callLoop (logResolve R) funcNode node pairs log ts ch processed =
        .ok (log ++ pairs.map (fun p => (funcNode, p.1, p.2)),
             pairs.foldl (fun ts p => ts.add (R funcNode p.1 p.2)) ts, ch') := by
  intro pairs
  induction pairs with
  | nil =>
      intro log ts ch processed _ _
      exact ⟨ch, by simp [callLoop]⟩
  | cons p rest ih =>
      intro log ts ch processed hp hnd
      obtain ⟨ft, ats⟩ := p
      simp only [List.map_cons, List.nodup_cons] at hnd
      obtain ⟨hnd1, hnd2⟩ := hnd
      have hkey : ((node, ft, ats) : Node × Ty × List Ty) ∉ processed :=
        hp _ (List.mem_cons_self _ _)
      simp only [callLoop, if_neg hkey, logResolve]
      have hp' : ∀ q ∈ rest, ((node, q.1, q.2) : Node × Ty × List Ty) ∉
          processed ++ [(node, ft, ats)] := by
        intro q hq hc
        rcases List.mem_append.mp hc with hc | hc
        · exact hp q (List.mem_cons_of_mem _ hq) hc
        · simp only [List.mem_singleton] at hc
          have hmm : ((node, q.1, q.2) : Node × Ty × List Ty) ∈
              rest.map (fun p => ((node, p.1, p.2) : Node × Ty × List Ty)) :=
            List.mem_map.mpr ⟨q, hq, rfl⟩
          rw [hc] at hmm
          exact hnd1 hmm
      obtain ⟨ch', hrec⟩ :=
        @ih (log ++ [(funcNode, ft, ats)]) (ts.add (R funcNode ft ats))
          (ch || decide (R funcNode ft ats ∉ ts)) (processed ++ [(node, ft, ats)]) hp' hnd2
      refine ⟨ch', ?_⟩
      rw [hrec]
      simp

theorem nodeTypeset_not_tylit {context : Bindings} {node : Node} {ts : TypeSet}
    (hnl : ∀ t, node ≠ .tylit t) (hb : alookup context node = some ts) :
    nodeTypeset context node = .ok (false, ts) := by
  cases node
  case tylit t => exact absurd rfl (hnl t)
  all_goals simp [nodeTypeset, hb]

theorem attrLoop_first_error {F : FieldLayout} {attr : String} :
    ∀ {pre : List Ty} {t : Ty} {post : List Ty} {ts : TypeSet} {ch : Bool},
      (∀ x ∈ pre, (alookup (F x) attr).isSome) →
      alookup (F t) attr = none →
      attrLoop F attr (pre ++ t :: post) ts ch = .error (.inferError t attr) := by
  intro pre
  induction pre with
  | nil =>
      intro t post ts ch _ hmiss
      simp [attrLoop, hmiss]
  | cons x rest ih =>
      intro t post ts ch hpre hmiss
      simp only [List.cons_append, attrLoop]
      rcases hx : alookup (F x) attr with _ | ⟨v, res⟩
      · have := hpre x (List.mem_cons_self _ _)
        simp [hx] at this
      · exact ih (fun y hy => hpre y (List.mem_cons_of_mem _ hy)) hmiss

theorem zip_map_fst_take {α β : Type} :
    ∀ (as : List α) (bs : List β), (List.zip as bs).map Prod.fst = as.take bs.length := by
  intro as
  induction as with
  | nil => intro bs; simp
  | cons a as ih =>
      intro bs
      cases bs with
      | nil => simp
      | cons b bs => simp [ih]

theorem zip_take_len {α β : Type} :
    ∀ (as : List α) (bs : List β), List.zip as bs = List.zip as (bs.take as.length) := by
  intro as
  induction as with
  | nil => intro bs; simp
  | cons a as ih =>
      intro bs
      cases bs with
      | nil => rfl
      | cons b bs =>
          show (a, b) :: List.zip as bs = (a, b) :: List.zip as (bs.take as.length)
          rw [ih]

theorem seedFold_notmem :
    ∀ (l : List (Node × Ty)) (c : Bindings) (n : Node),
      n ∉ l.map Prod.fst →
      alookup (l.foldl (fun c p => ainsert c p.1 [p.2]) c) n = alookup c n := by
  intro l
  induction l with
  | nil => intro c n _; rfl
  | cons p rest ih =>
      intro c n hn
      simp only [List.map_cons, List.mem_cons] at hn
      push_neg at hn
      simp only [List.foldl_cons]
      rw [ih _ n hn.2, alookup_ainsert, if_neg hn.1]

theorem seedFold_mem :
    ∀ (l : List (Node × Ty)) (c : Bindings) {k : Node} {v : Ty},
      (k, v) ∈ l → (l.map Prod.fst).Nodup →
      alookup (l.foldl (fun c p => ainsert c p.1 [p.2]) c) k = some [v] := by
  intro l
  induction l with
  | nil => intro c k v h _; exact absurd h (by simp)
  | cons p rest ih =>
      intro c k v h hnd
      simp only [List.map_cons, List.nodup_cons] at hnd
      simp only [List.foldl_cons]
      rcases List.mem_cons.mp h with rfl | hmem
      · rw [seedFold_notmem rest _ k (by simpa using hnd.1)]
        rw [alookup_ainsert, if_pos rfl]
      · exact ih _ hmem hnd.2

/-! ### Concrete fixtures used by the claim theorems -/

/-- The `Int32` type. -/
def i32 : Ty := .con "Int32" []

/-- The identity-shaped function `def f(a): return a` — one formal
argument and a single `ret` operation returning it. -/
def f0 : Func := { args := [.arg 0], ops := [⟨0, .ret_ (some (.arg 0))⟩] }

/-- A two-argument function body (a method body `def g(self, x): return
self`): formals `(self, x)`, one `ret` operation. -/
def g3 : Func := { args := [.arg 0, .arg 1], ops := [⟨0, .ret_ (some (.arg 0))⟩] }

/-- A fresh inference cache. -/
def emptyCache : Cache := ⟨[], []⟩

/-- A field layout with no user-defined types. -/
def emptyLayout : FieldLayout := fun _ => []

/-- A concrete `promote` join (left projection — associativity suffices
for the fixtures here). -/
def fstPromote : Ty → Ty → Ty := fun a _ => a

def tT : Ty := .con "T" []
def tU : Ty := .con "U" []
def tF : Ty := .con "F" []
def tR : Ty := .con "R" []

/-- A placeholder context value for pre-populated cache entries. -/
def dummyCtx : Ctx :=
  { func := f0, context := [], constraints := [], graph := ⟨[], []⟩, metadata := [] }

/-- The signature `Function[Int32, Int32]`. -/
def sig0 : Ty := .con "Function" [i32, i32]

/-- A cache holding, under key `(f0, (Int32,))`, exactly the pair that the
store `cache.typings[func, argtypes] = signature, ctx` would write. -/
def cacheHit : Cache := ⟨[], [((0, [i32]), (.sigv sig0, .ctxv dummyCtx))]⟩

/-- A cache holding an entry only at the self-prepended key
`(g3, (T, U))`. -/
def cachePrep : Cache := ⟨[], [((0, [tT, tU]), (.sigv sig0, .ctxv dummyCtx))]⟩

def nC : Node := .op 10
def nK : Node := .cnst 1
def nA : Node := .op 11
def nP : Node := .cnst 2

/-- A small context with one `call`-constrained node `nC` (callee node
`nK`, one argument node `nA`), where `nA` in addition receives a type
from `nP` mid-run, forcing a second visit of `nC`. -/
def ctx4 : Ctx :=
  { func := ⟨[], []⟩
  , context := [(nC, []), (nA, [tT]), (nP, [tU]), (nK, [tF])]
  , constraints := [(nC, .call)]
  , graph := ⟨[nC, nA, nP, nK], [(nK, nC), (nA, nC), (nP, nA)]⟩
  , metadata := [(nC, .callM nK [nA])] }

/-- A flow-only two-node context (edge `op0 → op1`, `op0` seeded). -/
def ctx6 : Ctx :=
  { func := ⟨[], []⟩
  , context := [(.op 0, [tT]), (.op 1, [])]
  , constraints := []
  , graph := ⟨[.op 0, .op 1], [(.op 0, .op 1)]⟩
  , metadata := [] }

/-- A resolver oracle with a fixed result type, used where the claim does
not concern the resolver itself. -/
def resolve6 : Unit → Node → Ty → List Ty → Except Err (Unit × Ty) :=
  fun st _ _ _ => .ok (st, tT)

/-- A context with one `attr`-constrained node `op 1` whose single
predecessor `op 0` holds a type `T` whose layout declares only `x` and
`y`. -/
def ctx5 : Ctx :=
  { func := ⟨[], []⟩
  , context := [(.op 0, [tT]), (.op 1, [])]
  , constraints := [(.op 1, .attr)]
  , graph := ⟨[.op 0, .op 1], [(.op 0, .op 1)]⟩
  , metadata := [(.op 1, .attrM "q")] }

/-- A field layout where `T` declares fields `x` and `y` only. -/
def layout5 : FieldLayout := fun t =>
  if t = tT then [("x", 0, i32), ("y", 0, i32)] else []

/-- A context whose function has two formals but no operations, for the
arity-mismatch seeding fixture. -/
def ctxW : Ctx :=
  { func := ⟨[.arg 0, .arg 1], []⟩, context := [], constraints := []
  , graph := ⟨[], []⟩, metadata := [] }

/-! ### Claim theorems -/

/-- C1: the claim says that at entry to the fixpoint solver every graph
node is bound (non-argument nodes and `'return'` to the empty set,
formals to argument singletons) so the solver's lookups succeed.  On the
code this fails: `build_graph` leaves the binding map as the empty dict
(`initial_context` is never called), so after `Context.copy` and
`seed_context` only the formal-argument nodes are bound — for the
one-operation function `f0`, `'return'` and the `ret` operation node have
no binding, the first solver visit raises `KeyError`, and the whole
`infer` call fails with `KeyError` instead of reaching a result. -/
theorem c1_solver_entry_bindings_missing :
    ((build_graph f0).map (fun tmpl =>
        (alookup (seed_context (Ctx.copy tmpl) [i32]).context Node.ret,
         alookup (seed_context (Ctx.copy tmpl) [i32]).context (Node.op 0),
         alookup (seed_context (Ctx.copy tmpl) [i32]).context (Node.arg 0))) =
      .ok (none, none, some [i32])) ∧
    infer [f0] emptyLayout fstPromote 9 emptyCache 0 [i32] = .error .keyError := by
  constructor
  · rfl
  · rfl

/-- C2: the claim says the cache-hit value of `infer` equals, component
for component, the cold-path value.  On the code this fails twice over:
the cold path never produces a value (it raises `KeyError`, see C1), and
the orientation is swapped — line 146 stores `(signature, ctx)` while
line 147 returns `(ctx, signature)`, so a hit on a cache entry written in
exactly the stored format returns the `Signature` in the first component
where the cold path would put the `Context`. -/
theorem c2_cache_hit_and_cold_path_disagree :
    infer [f0] emptyLayout fstPromote 9 emptyCache 0 [i32] = .error .keyError ∧
    infer [f0] emptyLayout fstPromote 9 cacheHit 0 [i32] =
      .ok (cacheHit, (.sigv sig0, .ctxv dummyCtx)) := by
  constructor
  · rfl
  · rfl

/-- C3: the claim says a `Method(f, self_type)` callee is unwrapped and
`self_type` is prepended to the argument types before recursing.  On the
code the prepend is commented out: with a cache holding an entry only at
the prepended key `(g3, (T, U))`, resolving a call to `Method(g3, T)`
with argument types `(U,)` recurses into `infer` with `(U,)` unchanged —
missing the cache entry and crashing on the cold path — instead of
hitting the `(T, U)` entry. -/
theorem c3_method_call_not_prepended :
    Cache.lookup cachePrep 0 [tT, tU] = some (.sigv sig0, .ctxv dummyCtx) ∧
    infer_call (infer [g3] emptyLayout fstPromote 9) cachePrep (.cnst 5)
      (.method 0 tT) [tU] = .error .keyError := by
  constructor
  · rfl
  · rfl

/-- C8: the claim says an overloaded (frozenset) callee type makes the
resolver fail fast with a "not implemented" error.  On the code the
failure is an `AttributeError`: `func_type.name` is evaluated first and a
`frozenset` has no `name` attribute, so the `isinstance(func_type,
frozenset)` guard is never reached (and even that guard's
`raise NotImplemented(...)` would raise `TypeError`, since the
`NotImplemented` singleton is not callable). -/
theorem c8_overloaded_callee_attribute_error :
    infer_call (infer [g3] emptyLayout fstPromote 9) emptyCache (.cnst 5)
      (.oset [tT, tU]) [tU] = .error (.attributeError "name") := by
  rfl

/-- C4 counterexample: the claim says a (node, callee-type, argument
types) combination already resolved earlier in the same fixpoint run —
including in an earlier visit of the same node — is not re-resolved.  In
the run below the call node `nC` is visited twice (its argument node
grows in between), and the instrumentation log shows the combination
`(F, (T,))` resolved twice: the `processed` set is re-created on every
`infer_node` invocation, so nothing carries over between visits. -/
theorem c4_combination_resolved_twice :
    (infer_graph (logResolve (fun _ _ _ => tR)) emptyLayout 20 [] ctx4
        ctx4.graph.nodes).map
      (fun r => r.1.count (nK, tF, [tT])) = .ok 2 := by
  rfl

/-- C5: an `attr`-constrained node whose single predecessor's type set
contains a type lacking the field recorded in the node's metadata fails
the whole run the first time such a candidate is processed: `infer_node`
returns `InferError` carrying the offending type and the field name (no
local recovery), and the worklist loop propagates exactly that failure
out of the run. -/
theorem c5_attr_missing_field_fails {σ : Type}
    {resolve : σ → Node → Ty → List Ty → Except Err (σ × Ty)} {F : FieldLayout}
    {st : σ} {ctx : Ctx} {node p : Node} {attr : String} {ts0 : TypeSet}
    {pre : List Ty} {t : Ty} {post : List Ty}
    (hC : alookupD ctx.constraints node .flow = .attr)
    (hnl : ∀ u, node ≠ .tylit u)
    (hb : alookup ctx.context node = some ts0)
    (hpred : ctx.graph.predecessors node = [p])
    (hmd : alookup ctx.metadata node = some (.attrM attr))
    (hp : alookup ctx.context p = some (pre ++ t :: post))
    (hpre : ∀ x ∈ pre, (alookup (F x) attr).isSome)
    (hmiss : alookup (F t) attr = none) :
    infer_node resolve F st ctx node = .error (.inferError t attr) ∧
    ∀ fuel rest, infer_graph resolve F (fuel + 1) st ctx (node :: rest) =
      .error (.inferError t attr) := by
  have h1 : infer_node resolve F st ctx node = .error (.inferError t attr) := by
    unfold infer_node
    rw [nodeTypeset_not_tylit hnl hb]
    dsimp only
    unfold runBranch
    rw [hC]
    dsimp only
    rw [hpred]
    dsimp only
    rw [hmd]
    dsimp only
    rw [hp]
    dsimp only
    rw [attrLoop_first_error hpre hmiss]
    rfl
  refine ⟨h1, fun fuel rest => ?_⟩
  simp only [infer_graph]
  rw [h1]

/-- The witness fixture for C5: resolving field `q` on `T`, whose layout
declares only `x` and `y`. -/
theorem c5_attr_missing_field_fails_witness :
    infer_node resolve6 layout5 () ctx5 (.op 1) = .error (.inferError tT "q") ∧
    infer_graph resolve6 layout5 4 () ctx5 [Node.op 1] = .error (.inferError tT "q") :=
  have h := @c5_attr_missing_field_fails Unit resolve6 layout5 () ctx5 (.op 1) (.op 0)
    "q" [] [] tT [] rfl (fun u => by simp) rfl rfl rfl rfl
    (fun x hx => absurd hx (by simp)) rfl
  ⟨h.1, h.2 3 []⟩

/-- C4 (amended): the `call` transfer enumerates the full cartesian
product of the callee node's type set and the per-argument type sets and,
within one application of the transfer function (one visit of the node),
invokes the Call Resolver exactly once per distinct (node, callee-type,
argument-types) combination, adding each result to the node's type set:
the node's binding afterwards is exactly its previous set grown by the
membership-checked `add` of the resolver's result for each combination in
enumeration order (so every result is in the new set and no previous type
is removed), and no other binding changes.  The seen-set is local to the
visit, so combinations from earlier visits of the same node in the same
fixpoint run are resolved again (see the counterexample). -/
theorem c4_resolver_once_per_combination_per_visit {R : Node → Ty → List Ty → Ty}
    {F : FieldLayout} {ctx : Ctx} {node funcNode : Node} {argNodes : List Node}
    {ts0 func_types : TypeSet} {arg_typess : List TypeSet}
    {pairs : List (Ty × List Ty)}
    {log : List (Node × Ty × List Ty)}
    (hnl : ∀ t, node ≠ .tylit t)
    (hb : alookup ctx.context node = some ts0)
    (hC : alookupD ctx.constraints node .flow = .call)
    (hmd : alookup ctx.metadata node = some (.callM funcNode argNodes))
    (hf : alookup ctx.context funcNode = some func_types)
    (hargs : lookupList ctx.context argNodes = .ok arg_typess)
    (hpairs : pairs = func_types.flatMap
        (fun ft => (productL arg_typess).map (fun ats => (ft, ats))))
    (hnd : (pairs.map (fun p => ((node, p.1, p.2) : Node × Ty × List Ty))).Nodup) :
    (∃ ch, infer_node (logResolve R) F log ctx node =
      .ok (log ++ pairs.map (fun p => ((funcNode, p.1, p.2) : Node × Ty × List Ty)),
           { ctx with context := (ainsert ctx.context node
               (pairs.foldl (fun ts p => ts.add (R funcNode p.1 p.2)) ts0)) },
           ch)) ∧
    (∀ p ∈ pairs, R funcNode p.1 p.2 ∈
        pairs.foldl (fun ts p => ts.add (R funcNode p.1 p.2)) ts0) ∧
    (∀ t ∈ ts0, t ∈ pairs.foldl (fun ts p => ts.add (R funcNode p.1 p.2)) ts0) := by
  subst hpairs
  refine ⟨?_, fun p hp => foldl_add_mem _ _ ts0 p hp,
    fun t ht => foldl_add_preserves _ _ ts0 t ht⟩
  obtain ⟨ch', hcl⟩ := @callLoop_logResolve R funcNode node
    (func_types.flatMap (fun ft => (productL arg_typess).map (fun ats => (ft, ats))))
    log ts0 false [] (fun p _ hc => absurd hc (by simp)) hnd
  refine ⟨ch', ?_⟩
  unfold infer_node
  rw [nodeTypeset_not_tylit hnl hb]
  dsimp only
  unfold runBranch
  rw [hC]
  dsimp only
  rw [hmd]
  dsimp only
  rw [hf]
  dsimp only
  rw [hargs]
  dsimp only
  rw [hcl]
  rfl

/-- A constant resolver oracle result, used by the C4 witness fixture. -/
def constR : Node → Ty → List Ty → Ty := fun _ _ _ => tR

/-- The `ctx4` context at the second visit of `nC`, after its argument
node has grown to `{T, U}`. -/
def ctx4b : Ctx :=
  { ctx4 with context := [(nC, []), (nA, [tT, tU]), (nP, [tU]), (nK, [tF])] }

/-- The witness fixture for C4 (amended): one visit of the call node `nC`
resolves exactly its two combinations `(F, (T,))` and `(F, (U,))`, each
once, and binds `nC` to its previous (empty) set grown by the resolver
results — here the single result type `R` — leaving the other bindings
unchanged. -/
theorem c4_resolver_once_per_combination_per_visit_witness :
    (∃ ch, infer_node (logResolve constR) emptyLayout [] ctx4b nC =
        .ok ([(nK, tF, [tT]), (nK, tF, [tU])],
             { ctx4b with context := ainsert ctx4b.context nC [tR] }, ch)) ∧
    (∀ p ∈ ([(tF, [tT]), (tF, [tU])] : List (Ty × List Ty)),
        constR nK p.1 p.2 ∈ ([tR] : TypeSet)) ∧
    (∀ t ∈ ([] : TypeSet), t ∈ ([tR] : TypeSet)) :=
  @c4_resolver_once_per_combination_per_visit constR emptyLayout ctx4b nC nK [nA]
    [] [tF] [[tT, tU]] [(tF, [tT]), (tF, [tU])] []
    (fun t => by simp [nC]) rfl rfl rfl rfl rfl rfl (by decide)

/-- C7: during one fixpoint run the type sets only grow: a successful
application of the per-node transfer (`infer_node`) maps every bound node
to a superset of its previous type set, of non-decreasing size. -/
theorem c7_typesets_only_grow {σ : Type}
    {resolve : σ → Node → Ty → List Ty → Except Err (σ × Ty)} {F : FieldLayout}
    {st : σ} {ctx : Ctx} {node : Node} {st' : σ} {ctx' : Ctx} {ch : Bool}
    (h : infer_node resolve F st ctx node = .ok (st', ctx', ch)) :
    ∀ n ts, alookup ctx.context n = some ts →
      ∃ ts', alookup ctx'.context n = some ts' ∧ (∀ t ∈ ts, t ∈ ts') ∧
        ts.length ≤ ts'.length :=
  infer_node_mono h

/-- The context after one visit of `op 1` in `ctx6`. -/
def ctx6step : Ctx := { ctx6 with context := [(.op 0, [tT]), (.op 1, [tT])] }

/-- The witness fixture for C7: the flow visit of `op 1` in `ctx6` grows
its set from `{}` to `{T}` and leaves `op 0`'s set `{T}` intact. -/
theorem c7_typesets_only_grow_witness :
    infer_node resolve6 emptyLayout () ctx6 (.op 1) = .ok ((), ctx6step, true) ∧
    (∃ ts', alookup ctx6step.context (.op 0) = some ts' ∧
      (∀ t ∈ ([tT] : TypeSet), t ∈ ts') ∧ ([tT] : TypeSet).length ≤ ts'.length) ∧
    (∃ ts', alookup ctx6step.context (.op 1) = some ts' ∧
      (∀ t ∈ ([] : TypeSet), t ∈ ts') ∧ ([] : TypeSet).length ≤ ts'.length) :=
  have h : infer_node resolve6 emptyLayout () ctx6 (.op 1) = .ok ((), ctx6step, true) := rfl
  ⟨h, c7_typesets_only_grow h (.op 0) [tT] rfl, c7_typesets_only_grow h (.op 1) [] rfl⟩

/-- The witness fixture for C6: on the flow-only context `ctx6` with
universe `{T}` and fan-out bound `1`, the solver terminates. -/
theorem c6_worklist_terminates_witness :
    ∃ fuel, infer_graph resolve6 emptyLayout fuel () ctx6 ctx6.graph.nodes ≠
      .error .outOfFuel :=
  infer_graph_terminates [tT] 1 ctx6 () ctx6.graph.nodes
    (fun st n ft ats => by simp [resolve6])
    (fun st bnd node st' ctx' ch hB h =>
      infer_node_flow_bounded ctx6 (fun n => rfl) st bnd node st' ctx' ch hB h)
    (by
      intro n ts h
      simp only [ctx6, alookup] at h
      split at h
      · injection h with h
        subst h
        exact ⟨by simp, fun t ht => by simpa using ht⟩
      · split at h
        · injection h with h
          subst h
          exact ⟨by simp, fun t ht => absurd ht (by simp)⟩
        · exact absurd h (by simp))
    (by
      intro n
      simp only [Graph.neighbors, List.length_map]
      exact le_trans (List.length_filter_le _ _) (Nat.le_of_eq rfl))
    (by intro t; simp [Graph.predecessors, ctx6])
    (fun t => rfl)

/-- C9: only the node→type-set binding mapping is mutable: a successful
worklist run (`infer_graph`) returns a context with the same function,
graph, constraints and metadata as its input; `seed_context` changes only
the binding map; and `Context.copy` shares the graph, constraints and
metadata while giving the copy a binding map that agrees with the
original on every node (the fresh deep-copied sets are equal, so a
specialization starting from a copy can neither observe nor alter the
template's bindings). -/
theorem c9_only_bindings_mutate :
    (∀ (σ : Type) (resolve : σ → Node → Ty → List Ty → Except Err (σ × Ty))
        (F : FieldLayout) (fuel : Nat) (st : σ) (ctx : Ctx) (W : List Node)
        (st' : σ) (ctx' : Ctx),
        infer_graph resolve F fuel st ctx W = .ok (st', ctx') →
        ctx'.func = ctx.func ∧ ctx'.graph = ctx.graph ∧
          ctx'.constraints = ctx.constraints ∧ ctx'.metadata = ctx.metadata) ∧
    (∀ (ctx : Ctx) (argtypes : List Ty),
        (seed_context ctx argtypes).func = ctx.func ∧
        (seed_context ctx argtypes).graph = ctx.graph ∧
        (seed_context ctx argtypes).constraints = ctx.constraints ∧
        (seed_context ctx argtypes).metadata = ctx.metadata) ∧
    (∀ ctx : Ctx, (Ctx.copy ctx).func = ctx.func ∧
        (Ctx.copy ctx).graph = ctx.graph ∧
        (Ctx.copy ctx).constraints = ctx.constraints ∧
        (Ctx.copy ctx).metadata = ctx.metadata ∧
        ∀ n, alookup (Ctx.copy ctx).context n = alookup ctx.context n) :=
  ⟨fun _ _ _ _ _ _ _ _ _ h => infer_graph_frame h,
   fun _ _ => ⟨rfl, rfl, rfl, rfl⟩,
   fun ctx => ⟨rfl, rfl, rfl, rfl, copy_context_lookup ctx.context⟩⟩

/-- The witness fixture for C9: a successful run on `ctx6` preserves the
graph, constraints and metadata. -/
theorem c9_only_bindings_mutate_witness :
    infer_graph resolve6 emptyLayout 9 () ctx6 ctx6.graph.nodes = .ok ((), ctx6step) ∧
    (ctx6step.func = ctx6.func ∧ ctx6step.graph = ctx6.graph ∧
      ctx6step.constraints = ctx6.constraints ∧ ctx6step.metadata = ctx6.metadata) :=
  have h : infer_graph resolve6 emptyLayout 9 () ctx6 ctx6.graph.nodes =
      .ok ((), ctx6step) := rfl
  ⟨h, c9_only_bindings_mutate.1 Unit resolve6 emptyLayout 9 () ctx6
    ctx6.graph.nodes () ctx6step h⟩

/-- C10: `infer` performs no arity check at seeding: `seed_context` pairs
the formal argument nodes with the concrete argument types positionally
up to the shorter of the two lists (seeding with `argtypes` is literally
seeding with `argtypes.take |formals|`, so surplus argument types are
silently dropped), binds each paired formal to the singleton of its
argument type, leaves every other node — in particular each surplus
formal — with its previous binding, and raises no error (`seed_context`
is a total function on all argument lists). -/
theorem c10_seed_context_no_arity_check (ctx : Ctx) (argtypes : List Ty)
    (hN : (ctx.func.args.take argtypes.length).Nodup) :
    (∀ i (h1 : i < ctx.func.args.length) (h2 : i < argtypes.length),
        alookup (seed_context ctx argtypes).context (ctx.func.args.get ⟨i, h1⟩) =
          some [argtypes.get ⟨i, h2⟩]) ∧
    (∀ n, n ∉ ctx.func.args.take argtypes.length →
        alookup (seed_context ctx argtypes).context n = alookup ctx.context n) ∧
    seed_context ctx argtypes = seed_context ctx (argtypes.take ctx.func.args.length) := by
  refine ⟨?_, ?_, ?_⟩
  · intro i h1 h2
    have hz : (List.zip ctx.func.args argtypes).get? i =
        some (ctx.func.args.get ⟨i, h1⟩, argtypes.get ⟨i, h2⟩) := by
      rw [List.get?_zip_eq_some]
      exact ⟨by rw [List.get?_eq_get h1], by rw [List.get?_eq_get h2]⟩
    have hmem := List.get?_mem hz
    have hndz : ((List.zip ctx.func.args argtypes).map Prod.fst).Nodup := by
      rw [zip_map_fst_take]
      exact hN
    exact seedFold_mem _ _ hmem hndz
  · intro n hn
    apply seedFold_notmem
    rw [zip_map_fst_take]
    exact hn
  · simp only [seed_context]
    rw [← zip_take_len]

/-- The witness fixture for C10: seeding a two-formal function with one
argument type binds the first formal, leaves the second unbound, and
equals seeding with the truncated list. -/
theorem c10_seed_context_no_arity_check_witness :
    (ctxW.func.args.take ([i32] : List Ty).length).Nodup ∧
    alookup (seed_context ctxW [i32]).context (.arg 0) = some [i32] ∧
    alookup (seed_context ctxW [i32]).context (.arg 1) = alookup ctxW.context (.arg 1) ∧
    seed_context ctxW [i32] = seed_context ctxW ([i32].take ctxW.func.args.length) := by
  refine ⟨by decide, ?_, ?_, ?_⟩
  · exact (c10_seed_context_no_arity_check ctxW [i32] (by decide)).1 0
      (by decide) (by decide)
  · exact (c10_seed_context_no_arity_check ctxW [i32] (by decide)).2.1 (.arg 1)
      (by decide)
  · exact (c10_seed_context_no_arity_check ctxW [i32] (by decide)).2.2

end NumbaInfer
